import Mathlib

/-!
Verification of the order-matching and Tezos-codec core of the
atomicDEX-API repository (mm2src/lp_ordermatch.rs, mm2src/coins/tezos.rs).

The Rust code is shallowly embedded: `BigRational`/`MmNumber` becomes `ℚ`,
`u64` becomes `ℕ`, coin tickers become `String`, `HashMap`s become
association lists, byte buffers become `List (Fin 256)`.  Every definition
mirrors one Rust item and is named after it.
-/

namespace AtomicDex

/-! ## Order-matching data model (lp_ordermatch.rs) -/

/-- `MmNumber` wraps `BigRational`; modelled as `ℚ`. -/
abbrev MmNumber := ℚ

/-- `TakerAction` from lp_ordermatch.rs. -/
inductive TakerAction where
  | Buy
  | Sell
deriving DecidableEq, Repr

/-- `OrderConfirmationsSettings` from lp_ordermatch.rs. -/
structure OrderConfirmationsSettings where
  base_confs : ℕ
  base_nota : Bool
  rel_confs : ℕ
  rel_nota : Bool
deriving DecidableEq, Repr

/-- The fields of `TakerRequest` relevant to matching and confirmation
negotiation (lp_ordermatch.rs). -/
structure TakerRequest where
  base : String
  rel : String
  base_amount : MmNumber
  rel_amount : MmNumber
  action : TakerAction
  conf_settings : Option OrderConfirmationsSettings
deriving DecidableEq, Repr

/-- `TakerRequest::get_base_amount`. -/
def TakerRequest.get_base_amount (t : TakerRequest) : MmNumber := t.base_amount

/-- `TakerRequest::get_rel_amount`. -/
def TakerRequest.get_rel_amount (t : TakerRequest) : MmNumber := t.rel_amount

/-- The `reserved` message stored in a `MakerMatch`; only its `base_amount`
(via `get_base_amount`) is consulted by `MakerOrder::available_amount`. -/
structure MakerReservedAmounts where
  base_amount : MmNumber
  rel_amount : MmNumber
deriving DecidableEq, Repr

/-- A `MakerMatch` as far as `available_amount` consults it. -/
structure MakerMatch where
  reserved : MakerReservedAmounts
deriving DecidableEq, Repr

/-- The fields of `MakerOrder` relevant to matching (lp_ordermatch.rs).
`matches: HashMap<Uuid, MakerMatch>` (field `matches'`, since `matches` is reserved in Lean) is modelled as the list of its values,
which is all `available_amount` folds over. -/
structure MakerOrder where
  max_base_vol : MmNumber
  min_base_vol : MmNumber
  price : MmNumber
  base : String
  rel : String
  matches' : List MakerMatch
deriving DecidableEq, Repr

/-- `MakerOrder::available_amount`: `max_base_vol` minus the sum of the
reserved base amounts of the current matches. -/
def MakerOrder.available_amount (o : MakerOrder) : MmNumber :=
  o.max_base_vol - (o.matches'.foldl (fun reserved m => reserved + m.reserved.base_amount) 0)

/-- `OrderMatchResult` from lp_ordermatch.rs. -/
inductive OrderMatchResult where
  | Matched : MmNumber × MmNumber → OrderMatchResult
  | NotMatched
deriving DecidableEq, Repr

/-- `MakerOrder::match_with_request` (lp_ordermatch.rs lines 1396-1434). -/
def MakerOrder.match_with_request (maker : MakerOrder) (taker : TakerRequest) :
    OrderMatchResult :=
  let taker_base_amount := taker.get_base_amount
  let taker_rel_amount := taker.get_rel_amount
  if taker_base_amount ≤ 0 ∨ taker_rel_amount ≤ 0 then
    OrderMatchResult.NotMatched
  else
    match taker.action with
    | TakerAction.Buy =>
        let taker_price := taker_rel_amount / taker_base_amount
        if maker.base = taker.base ∧ maker.rel = taker.rel ∧
            taker_base_amount ≤ maker.available_amount ∧
            maker.min_base_vol ≤ taker_base_amount ∧
            maker.price ≤ taker_price then
          OrderMatchResult.Matched (taker_base_amount, taker_base_amount * maker.price)
        else
          OrderMatchResult.NotMatched
    | TakerAction.Sell =>
        let taker_price := taker_base_amount / taker_rel_amount
        if maker.base = taker.rel ∧ maker.rel = taker.base ∧
            taker_rel_amount ≤ maker.available_amount ∧
            maker.min_base_vol ≤ taker_rel_amount ∧
            maker.price ≤ taker_price then
          OrderMatchResult.Matched (taker_base_amount / maker.price, taker_base_amount)
        else
          OrderMatchResult.NotMatched

/-- `SwapConfirmationsSettings` from lp_ordermatch.rs. -/
structure SwapConfirmationsSettings where
  maker_coin_confs : ℕ
  maker_coin_nota : Bool
  taker_coin_confs : ℕ
  taker_coin_nota : Bool
deriving DecidableEq, Repr

/-- The part of the `MmCoinEnum` interface consulted by the confirmation
negotiation: `required_confirmations()` and `requires_notarization()`. -/
structure MmCoin where
  required_confirmations : ℕ
  requires_notarization : Bool
deriving DecidableEq, Repr

/-- `choose_maker_confs_and_notas` (lp_ordermatch.rs lines 3332-3398). -/
def choose_maker_confs_and_notas (maker_confs : Option OrderConfirmationsSettings)
    (taker_req : TakerRequest) (maker_coin taker_coin : MmCoin) :
    SwapConfirmationsSettings :=
  let maker_settings := maker_confs.getD
    { base_confs := maker_coin.required_confirmations
      base_nota := maker_coin.requires_notarization
      rel_confs := taker_coin.required_confirmations
      rel_nota := taker_coin.requires_notarization }
  match taker_req.conf_settings with
  | some taker_settings =>
      match taker_req.action with
      | TakerAction.Sell =>
          { maker_coin_confs :=
              if taker_settings.rel_confs < maker_settings.base_confs then
                taker_settings.rel_confs
              else maker_settings.base_confs
            maker_coin_nota :=
              if !taker_settings.rel_nota then taker_settings.rel_nota
              else maker_settings.base_nota
            taker_coin_confs := maker_settings.rel_confs
            taker_coin_nota := maker_settings.rel_nota }
      | TakerAction.Buy =>
          { maker_coin_confs :=
              if taker_settings.base_confs < maker_settings.base_confs then
                taker_settings.base_confs
              else maker_settings.base_confs
            maker_coin_nota :=
              if !taker_settings.base_nota then taker_settings.base_nota
              else maker_settings.base_nota
            taker_coin_confs := maker_settings.rel_confs
            taker_coin_nota := maker_settings.rel_nota }
  | none =>
      { maker_coin_confs := maker_settings.base_confs
        maker_coin_nota := maker_settings.base_nota
        taker_coin_confs := maker_settings.rel_confs
        taker_coin_nota := maker_settings.rel_nota }

/-! ## TrieDiffHistory (lp_ordermatch.rs lines 1637-1680)

`H64` root hashes are modelled as opaque comparable values (`ℕ`); the
`HashMap<H64, TrieDiff>` becomes an association list with key-replacing
insert, which is the same key-value mapping. -/

/-- Root hash type `H64 = [u8; 8]`, modelled as an opaque comparable value. -/
abbrev H64 := ℕ

/-- `TrieDiff` from lp_ordermatch.rs.  The root-hash type is a parameter `R`:
lp_ordermatch.rs fixes it to `H64`; the orderbook model below instantiates it
with modelled trie roots. -/
structure TrieDiff (R K V : Type) where
  delta : List (K × Option V)
  next_root : R
deriving DecidableEq, Repr

/-- `HashMap::remove`: the removed value (if any) together with the map
without the key. -/
def hmRemove {κ α : Type} [DecidableEq κ] (m : List (κ × α)) (k : κ) :
    Option α × List (κ × α) :=
  ((m.find? (fun e => decide (e.1 = k))).map Prod.snd,
    m.filter (fun e => decide (¬ e.1 = k)))

/-- `HashMap::insert`: replaces any existing binding of the key. -/
def hmInsert {κ α : Type} [DecidableEq κ] (m : List (κ × α)) (k : κ) (v : α) :
    List (κ × α) :=
  (k, v) :: m.filter (fun e => decide (¬ e.1 = k))

/-- `HashMap::get` (also: `HashMap::entry` lookup). -/
def hmGet {κ α : Type} [DecidableEq κ] (m : List (κ × α)) (k : κ) : Option α :=
  (m.find? (fun e => decide (e.1 = k))).map Prod.snd

/-- `HashMap::contains_key`. -/
def hmContains {κ α : Type} [DecidableEq κ] (m : List (κ × α)) (k : κ) : Bool :=
  (m.find? (fun e => decide (e.1 = k))).isSome

/-- `HashSet::insert`. -/
def hsInsert {α : Type} [DecidableEq α] (s : List α) (x : α) : List α :=
  if x ∈ s then s else x :: s

/-- `HashSet::remove` / `BTreeSet::remove`. -/
def hsRemove {α : Type} [DecidableEq α] (s : List α) (x : α) : List α :=
  s.filter (fun y => decide (¬ y = x))

/-- The `while let Some(next_diff) = self.inner.remove(&diff.next_root)` loop
inside `insert_new_diff`: repeatedly removes the diff chained at the current
diff's `next_root`.  Each successful removal shrinks the map, so the map's
size bounds the number of iterations (`fuel`). -/
def collapseChain {R K V : Type} [DecidableEq R] (fuel : ℕ)
    (inner : List (R × TrieDiff R K V)) (diff : TrieDiff R K V) :
    List (R × TrieDiff R K V) :=
  match fuel with
  | 0 => inner
  | f + 1 =>
      match hmRemove inner diff.next_root with
      | (some next_diff, inner2) => collapseChain f inner2 next_diff
      | (none, _) => inner

/-- `TrieDiffHistory::insert_new_diff` (lp_ordermatch.rs lines 1657-1675).
The history is the association list standing for the `inner` HashMap. -/
def insert_new_diff {R K V : Type} [DecidableEq R] (inner : List (R × TrieDiff R K V))
    (insert_at : R) (diff : TrieDiff R K V) : List (R × TrieDiff R K V) :=
  if insert_at = diff.next_root then
    -- do nothing to avoid cycles in diff history
    inner
  else
    match hmRemove inner diff.next_root with
    | (some d, inner2) =>
        -- we reached a state that was already reached previously
        -- history can be cleaned up to this state hash
        collapseChain inner2.length inner2 d
    | (none, _) => hmInsert inner insert_at diff

/-! ## Orderbook (lp_ordermatch.rs lines 1739-1956)

`Uuid` is modelled as `ℕ`.  A per-pubkey per-pair Merkle-Patricia trie
(`memory_db` + root hash) is modelled by its committed key/value map: a stored
root is `some content`, the `H64::default()` "never created" sentinel is
`none`, and two roots are equal exactly when the committed contents are
(a collision-free hash abstraction).  `hashed_null_node` — the root of a
created-but-empty trie — is `some []`, which is distinct from the `none`
default, as in the code. -/

/-- `Uuid`, modelled as an opaque comparable value. -/
abbrev Uuid := ℕ

/-- `OrderbookItem` from lp_ordermatch.rs (lines 2575-2585). -/
structure OrderbookItem where
  pubkey : String
  base : String
  rel : String
  price : ℚ
  max_volume : ℚ
  min_volume : ℚ
  uuid : Uuid
  created_at : ℕ
deriving DecidableEq, Repr

/-- `new_protocol::MakerOrderUpdated`, as far as `apply_updated` reads it:
the three optional field updates. -/
structure MakerOrderUpdated where
  new_price : Option ℚ
  new_max_volume : Option ℚ
  new_min_volume : Option ℚ
deriving DecidableEq, Repr

/-- `OrderbookItem::apply_updated` (lp_ordermatch.rs lines 2619-2631). -/
def OrderbookItem.apply_updated (o : OrderbookItem) (msg : MakerOrderUpdated) :
    OrderbookItem :=
  let o := match msg.new_price with
    | some new_price => { o with price := new_price }
    | none => o
  let o := match msg.new_max_volume with
    | some new_max_volume => { o with max_volume := new_max_volume }
    | none => o
  match msg.new_min_volume with
  | some new_min_volume => { o with min_volume := new_min_volume }
  | none => o

/-- `alb_ordered_pair` (lp_ordermatch.rs lines 646-652). -/
def alb_ordered_pair (base rel : String) : String :=
  if base < rel then base ++ ":" ++ rel else rel ++ ":" ++ base

/-- `orderbook_topic_from_ordered_pair`: `"orbk/" ++ pair`. -/
def orderbook_topic_from_ordered_pair (pair : String) : String :=
  "orbk" ++ "/" ++ pair

/-- A modelled trie root: `none` is the `H64::default()` "no trie yet"
sentinel, `some content` the root committing to `content`. -/
abbrev TrieRoot := Option (List (Uuid × OrderbookItem))

/-- `OrderbookPubkeyState` (lp_ordermatch.rs lines 1682-1693). -/
structure OrderbookPubkeyState where
  last_keep_alive : ℕ
  order_pairs_trie_state_history : List (TrieRoot × TrieDiff TrieRoot Uuid OrderbookItem)
  orders_uuids : List (Uuid × String)
  trie_roots : List (String × TrieRoot)
deriving DecidableEq, Repr

/-- `OrderbookPubkeyState::default()` with `last_keep_alive` set to `now`,
exactly what `pubkey_state_mut` inserts for an unknown pubkey. -/
def defaultPubkeyState (now : ℕ) : OrderbookPubkeyState :=
  { last_keep_alive := now
    order_pairs_trie_state_history := []
    orders_uuids := []
    trie_roots := [] }

/-- `pubkey_state_mut` (lp_ordermatch.rs lines 1706-1718): the state for the
pubkey, created with `last_keep_alive = now` when absent. -/
def pubkey_state_get (state : List (String × OrderbookPubkeyState))
    (from_pubkey : String) (now : ℕ) : OrderbookPubkeyState :=
  (hmGet state from_pubkey).getD (defaultPubkeyState now)

/-- `order_pair_root_mut` (lp_ordermatch.rs lines 1720-1725): the stored root
for the pair, `H64::default()` (here `none`) when absent. -/
def order_pair_root_get (trie_roots : List (String × TrieRoot)) (pair : String) :
    TrieRoot :=
  (hmGet trie_roots pair).getD none

/-- `Orderbook` (lp_ordermatch.rs lines 1739-1751).  `memory_db` is subsumed
by storing each pair trie's committed content inside its root (`TrieRoot`). -/
structure Orderbook where
  ordered : List ((String × String) × List (ℚ × Uuid))
  unordered : List ((String × String) × List Uuid)
  order_set : List (Uuid × OrderbookItem)
  pubkeys_state : List (String × OrderbookPubkeyState)
  topics_subscribed_to : List String
deriving DecidableEq, Repr

/-- `Orderbook::default()`. -/
def emptyOrderbook : Orderbook :=
  { ordered := [], unordered := [], order_set := [], pubkeys_state := []
    topics_subscribed_to := [] }

/-- Removing an element from a per-pair index (`ordered`/`unordered`),
dropping the pair entry when its set becomes empty: the shared
`orders.remove(..); if orders.is_empty() { map.remove(&base_rel) }` tail of
`remove_order` and `remove_order_trie_update`. -/
def removeFromIndex {β : Type} [DecidableEq β]
    (idx : List ((String × String) × List β)) (base_rel : String × String)
    (x : β) : List ((String × String) × List β) :=
  match hmGet idx base_rel with
  | some orders =>
      let orders := hsRemove orders x
      if orders.isEmpty then (hmRemove idx base_rel).2
      else hmInsert idx base_rel orders
  | none => idx

/-- Inserting an element into a per-pair index: the shared
`map.entry(base_rel).or_insert_with(..).insert(x)` pattern of
`insert_or_update_order`. -/
def insertIntoIndex {β : Type} [DecidableEq β]
    (idx : List ((String × String) × List β)) (base_rel : String × String)
    (x : β) : List ((String × String) × List β) :=
  hmInsert idx base_rel (hsInsert ((hmGet idx base_rel).getD []) x)

/-- `Orderbook::remove_order` (lp_ordermatch.rs lines 1837-1865). -/
def Orderbook.remove_order (ob : Orderbook) (uuid : Uuid) :
    Option OrderbookItem × Orderbook :=
  match hmGet ob.order_set uuid with
  | none => (none, ob)
  | some order =>
      let order_set := (hmRemove ob.order_set uuid).2
      let base_rel := (order.base, order.rel)
      let ordered := removeFromIndex ob.ordered base_rel (order.price, uuid)
      let unordered := removeFromIndex ob.unordered base_rel uuid
      (some order, { ob with order_set := order_set, ordered := ordered, unordered := unordered })

/-- `Orderbook::remove_order_trie_update` (lp_ordermatch.rs lines 1867-1917).
`delta_trie_root` with a `[(uuid, None)]` delta removes the key from the
trie; on the never-created (`H64::default()`) root it fails and the function
returns early with the root and diff history untouched, exactly as the code's
`Err(_) => { log!(...); return Some(order) }` arm. -/
def Orderbook.remove_order_trie_update (ob : Orderbook) (uuid : Uuid) (now : ℕ) :
    Option OrderbookItem × Orderbook :=
  match hmGet ob.order_set uuid with
  | none => (none, ob)
  | some order =>
      let order_set := (hmRemove ob.order_set uuid).2
      let base_rel := (order.base, order.rel)
      let ordered := removeFromIndex ob.ordered base_rel (order.price, uuid)
      let unordered := removeFromIndex ob.unordered base_rel uuid
      let alb_ordered := alb_ordered_pair order.base order.rel
      let pubkey_state := pubkey_state_get ob.pubkeys_state order.pubkey now
      let old_state := order_pair_root_get pubkey_state.trie_roots alb_ordered
      match old_state with
      | none =>
          -- delta_trie_root fails: no trie exists at the default root
          let pubkey_state :=
            { pubkey_state with trie_roots := hmInsert pubkey_state.trie_roots alb_ordered none }
          (some order,
            { ob with order_set := order_set, ordered := ordered, unordered := unordered
                      pubkeys_state := hmInsert ob.pubkeys_state order.pubkey pubkey_state })
      | some content =>
          let new_root : TrieRoot := some (content.filter (fun e => decide (¬ e.1 = uuid)))
          let history := insert_new_diff pubkey_state.order_pairs_trie_state_history old_state
            { delta := [(uuid, none)], next_root := new_root }
          let pubkey_state :=
            { pubkey_state with
                trie_roots := hmInsert pubkey_state.trie_roots alb_ordered new_root
                order_pairs_trie_state_history := history }
          (some order,
            { ob with order_set := order_set, ordered := ordered, unordered := unordered
                      pubkeys_state := hmInsert ob.pubkeys_state order.pubkey pubkey_state })

/-- `Orderbook::insert_or_update_order` (lp_ordermatch.rs lines 1811-1835). -/
def Orderbook.insert_or_update_order (ob : Orderbook) (order : OrderbookItem)
    (now : ℕ) : Orderbook :=
  if order.max_volume ≤ 0 ∨ order.price ≤ 0 ∨ order.min_volume < 0 then
    (ob.remove_order_trie_update order.uuid now).2
  else -- else insert the order
    let base_rel := (order.base, order.rel)
    let ordered := insertIntoIndex ob.ordered base_rel (order.price, order.uuid)
    let unordered := insertIntoIndex ob.unordered base_rel order.uuid
    let order_set := hmInsert ob.order_set order.uuid order
    { ob with ordered := ordered, unordered := unordered, order_set := order_set }

/-- `Orderbook::insert_or_update_order_update_trie` (lp_ordermatch.rs lines
1770-1809).  `get_trie_mut` never fails here because a stored `some content`
root always opens, and the default root opens as a fresh empty trie. -/
def Orderbook.insert_or_update_order_update_trie (ob : Orderbook)
    (order : OrderbookItem) (now : ℕ) : Orderbook :=
  if order.max_volume ≤ 0 ∨ order.price ≤ 0 ∨ order.min_volume < 0 then
    (ob.remove_order_trie_update order.uuid now).2
  else -- else insert the order
    let ob := ob.insert_or_update_order order now
    let pubkey_state := pubkey_state_get ob.pubkeys_state order.pubkey now
    let alb_ordered := alb_ordered_pair order.base order.rel
    let prev_root := order_pair_root_get pubkey_state.trie_roots alb_ordered
    let orders_uuids := hsInsert pubkey_state.orders_uuids (order.uuid, alb_ordered)
    let content := prev_root.getD []
    let new_root : TrieRoot := some (hmInsert content order.uuid order)
    let history :=
      match prev_root with
      | some _ =>
          insert_new_diff pubkey_state.order_pairs_trie_state_history prev_root
            { delta := [(order.uuid, some order)], next_root := new_root }
      | none => pubkey_state.order_pairs_trie_state_history
    let pubkey_state :=
      { pubkey_state with
          orders_uuids := orders_uuids
          trie_roots := hmInsert pubkey_state.trie_roots alb_ordered new_root
          order_pairs_trie_state_history := history }
    { ob with pubkeys_state := hmInsert ob.pubkeys_state order.pubkey pubkey_state }

/-- `new_protocol::PubkeyKeepAlive`. -/
structure PubkeyKeepAlive where
  trie_roots : List (String × TrieRoot)
  timestamp : ℕ
deriving DecidableEq, Repr

/-- `OrdermatchRequest`, restricted to the variant produced by
`process_keep_alive`. -/
inductive OrdermatchRequest where
  | SyncPubkeyOrderbookState (pubkey : String) (trie_roots : List (String × TrieRoot))
deriving DecidableEq, Repr

/-- The body of the `for (alb_pair, trie_root) in message.trie_roots` loop of
`process_keep_alive`: threads the pubkey's `trie_roots` map (mutated through
`entry(..).or_insert_with(H64::default)`) and the accumulated
`trie_roots_to_request`. -/
def keepAliveStep (subscribed : List String)
    (acc : List (String × TrieRoot) × List (String × TrieRoot))
    (e : String × TrieRoot) : List (String × TrieRoot) × List (String × TrieRoot) :=
  let (roots, to_request) := acc
  if (orderbook_topic_from_ordered_pair e.1) ∈ subscribed then
    let actual_trie_root := (hmGet roots e.1).getD none
    let roots := match hmGet roots e.1 with
      | some _ => roots
      | none => hmInsert roots e.1 none
    if ¬ actual_trie_root = e.2 then (roots, hmInsert to_request e.1 e.2)
    else (roots, to_request)
  else acc

/-- `Orderbook::process_keep_alive` (lp_ordermatch.rs lines 1921-1956). -/
def Orderbook.process_keep_alive (ob : Orderbook) (from_pubkey : String)
    (message : PubkeyKeepAlive) (now : ℕ) : Option OrdermatchRequest × Orderbook :=
  let pubkey_state := pubkey_state_get ob.pubkeys_state from_pubkey now
  let (roots, trie_roots_to_request) :=
    message.trie_roots.foldl (keepAliveStep ob.topics_subscribed_to)
      (pubkey_state.trie_roots, [])
  if trie_roots_to_request.isEmpty then
    let pubkey_state :=
      { pubkey_state with trie_roots := roots, last_keep_alive := message.timestamp }
    (none, { ob with pubkeys_state := hmInsert ob.pubkeys_state from_pubkey pubkey_state })
  else
    let pubkey_state := { pubkey_state with trie_roots := roots }
    (some (OrdermatchRequest.SyncPubkeyOrderbookState from_pubkey trie_roots_to_request),
      { ob with pubkeys_state := hmInsert ob.pubkeys_state from_pubkey pubkey_state })

/-- A concrete orderbook item used by the invariant claims. -/
def c6item : OrderbookItem :=
  { pubkey := "p", base := "A", rel := "B", price := 1, max_volume := 1,
    min_volume := 0, uuid := 0, created_at := 0 }

/-- A concrete one-pubkey orderbook used to witness keep-alive processing. -/
def c10ob : Orderbook :=
  { ordered := [], unordered := [], order_set := []
    pubkeys_state := [("pk", defaultPubkeyState 7)]
    topics_subscribed_to := ["orbk/A:B"] }

/-- A concrete keep-alive message matching `c10ob`'s cached (default) root. -/
def c10msg : PubkeyKeepAlive :=
  { trie_roots := [("A:B", none)], timestamp := 9 }

/-! ## Tezos binary codec (coins/tezos.rs)

Byte buffers are `List Byte` with `Byte = Fin 256`.  A parser is a function
from the unread bytes to a result together with the remaining bytes — the
`Reader` of the parity-bitcoin `serialization` crate specialised to a byte
slice.  Rust panics (out-of-bounds slicing, `unimplemented!`) are a distinct
outcome `panicked`, since a panic unwinds past all the `Result`-based error
handling. -/

/-- A byte. -/
abbrev Byte := Fin 256

/-- `serialization::Error`, message payloads dropped. -/
inductive SerError where
  | unexpectedEnd
  | malformedData
  | unreadData
  | custom
deriving DecidableEq, Repr

/-- The outcome of running Rust deserialization code: success, a
`serialization::Error`, or a panic that unwinds past the error handling. -/
inductive PResult (α : Type) where
  | ok : α → PResult α
  | err : SerError → PResult α
  | panicked
deriving DecidableEq, Repr

/-- Sequencing of fallible deserialization steps (`?` in Rust); errors and
panics propagate. -/
def PResult.bind {α β : Type} (x : PResult α) (f : α → PResult β) : PResult β :=
  match x with
  | .ok a => f a
  | .err e => .err e
  | .panicked => .panicked

/-- `reader.read::<u8>()`. -/
def readByte (input : List Byte) : PResult (Byte × List Byte) :=
  match input with
  | [] => .err .unexpectedEnd
  | b :: rest => .ok (b, rest)

/-- `reader.read_slice(&mut buf)` for a buffer of `n` bytes. -/
def read_slice (n : ℕ) (input : List Byte) : PResult (List Byte × List Byte) :=
  if n ≤ input.length then .ok (input.take n, input.drop n) else .err .unexpectedEnd

/-- `u32::from_be_bytes` on a 4-byte list. -/
def be32 (bs : List Byte) : ℕ :=
  bs.foldl (fun acc b => acc * 256 + b.val) 0

/-- `(n as u32).to_be_bytes()`: the 4 big-endian bytes of `n` truncated to
32 bits. -/
def u32be (n : ℕ) : List Byte :=
  let m := n % 4294967296
  [⟨m / 16777216 % 256, by omega⟩, ⟨m / 65536 % 256, by omega⟩,
    ⟨m / 256 % 256, by omega⟩, ⟨m % 256, by omega⟩]

/-- A 4-byte big-endian length prefix followed by that many bytes (the
`let length: H32 = reader.read()?; ... reader.read_slice(&mut bytes)?`
pattern). -/
def readLenPrefixed (input : List Byte) : PResult (List Byte × List Byte) :=
  (read_slice 4 input).bind fun (lenBytes, r) =>
  (read_slice (be32 lenBytes) r).bind fun (bytes, r2) =>
  .ok (bytes, r2)

/-! ### Zarith integer codec (tezos.rs lines 2078-2122, 2289-2320, 2643-2670)

`BigUint` is `ℕ`, `BigInt` is `ℤ`. -/

/-- The `loop` of `big_uint_to_zarith_bytes`, with fuel making the recursion
structural (each iteration divides `num` by 128, so `num + 1` iterations
always suffice). -/
def zarith_uint_loop : ℕ → ℕ → List Byte
  | 0, _ => []
  | fuel + 1, num =>
      if h : num < 128 then [⟨num, by omega⟩]
      else ⟨num % 128 + 128, by omega⟩ :: zarith_uint_loop fuel (num / 128)

/-- `big_uint_to_zarith_bytes` (tezos.rs lines 2078-2093): little-endian
base-128 groups, high bit set on every byte except the last. -/
def big_uint_to_zarith_bytes (num : ℕ) : List Byte :=
  zarith_uint_loop (num + 1) num

/-- `big_int_to_zarith_bytes` (tezos.rs lines 2095-2122): the first byte
holds 6 magnitude bits plus the sign at bit 6; the remaining magnitude is a
plain unsigned zarith tail (the loop continues with divisor 128, which is
exactly `big_uint_to_zarith_bytes`). -/
def big_int_to_zarith_bytes (num : ℤ) : List Byte :=
  if num < 0 then
    let m := (-num).toNat
    if h : m < 64 then [⟨m + 64, by omega⟩]
    else ⟨m % 64 + 64 + 128, by omega⟩ :: big_uint_to_zarith_bytes (m / 64)
  else
    let m := num.toNat
    if h : m < 64 then [⟨m, by omega⟩]
    else ⟨m % 64 + 128, by omega⟩ :: big_uint_to_zarith_bytes (m / 64)

/-- `TezosUint::deserialize` (tezos.rs lines 2643-2662).  The Rust loop
accumulates `res += cleared_byte * 128^i`; the equivalent recurrence is
`res = cleared_first + 128 * rest`. -/
def readTezosUint (input : List Byte) : PResult (ℕ × List Byte) :=
  match input with
  | [] => .err .unexpectedEnd
  | b :: rest =>
      if b.val < 128 then .ok (b.val, rest)
      else (readTezosUint rest).bind fun (n, r) => .ok ((b.val - 128) + 128 * n, r)

/-- `TezosInt::deserialize` (tezos.rs lines 2289-2320).  The first byte
carries the sign at bit 6 and 6 low magnitude bits; continuation bytes carry
7 bits each, exactly the unsigned decoder applied to the tail. -/
def readTezosInt (input : List Byte) : PResult (ℤ × List Byte) :=
  match input with
  | [] => .err .unexpectedEnd
  | b :: rest =>
      let sign : ℤ := if 64 ≤ b.val % 128 then -1 else 1
      let low : ℕ := b.val % 64
      if b.val < 128 then .ok (sign * low, rest)
      else (readTezosUint rest).bind fun (n, r) => .ok (sign * (low + 64 * n), r)

/-! ### UTF-8 validation (`String::from_utf8` / `std::str::from_utf8`) -/

/-- A UTF-8 continuation byte (`0x80..0xBF`); helper for `utf8Valid`. -/
def utf8ContByte (b : Byte) : Bool :=
  decide (128 ≤ b.val ∧ b.val ≤ 191)

/-- Allowed second byte of a 3-byte UTF-8 sequence led by `b` (RFC 3629:
`0xE0` narrows to `0xA0..0xBF`, `0xED` to `0x80..0x9F`). -/
def utf8Second3 (b b2 : Byte) : Bool :=
  if b.val = 224 then decide (160 ≤ b2.val ∧ b2.val ≤ 191)
  else if b.val = 237 then decide (128 ≤ b2.val ∧ b2.val ≤ 159)
  else utf8ContByte b2

/-- Allowed second byte of a 4-byte UTF-8 sequence led by `b` (RFC 3629:
`0xF0` narrows to `0x90..0xBF`, `0xF4` to `0x80..0x8F`). -/
def utf8Second4 (b b2 : Byte) : Bool :=
  if b.val = 240 then decide (144 ≤ b2.val ∧ b2.val ≤ 191)
  else if b.val = 244 then decide (128 ≤ b2.val ∧ b2.val ≤ 143)
  else utf8ContByte b2

/-- RFC 3629 UTF-8 validity, the check performed by `String::from_utf8` and
`std::str::from_utf8`. -/
def utf8Valid : List Byte → Bool
  | [] => true
  | b :: rest =>
      if b.val ≤ 127 then utf8Valid rest
      else if 194 ≤ b.val ∧ b.val ≤ 223 then
        match rest with
        | b2 :: r => utf8ContByte b2 && utf8Valid r
        | [] => false
      else if 224 ≤ b.val ∧ b.val ≤ 239 then
        match rest with
        | b2 :: b3 :: r => utf8Second3 b b2 && utf8ContByte b3 && utf8Valid r
        | _ => false
      else if 240 ≤ b.val ∧ b.val ≤ 244 then
        match rest with
        | b2 :: b3 :: b4 :: r =>
            utf8Second4 b b2 && utf8ContByte b3 && utf8ContByte b4 && utf8Valid r
        | _ => false
      else false

/-! ### Structured-value codec (`TezosValue`, tezos.rs lines 1683-1875 and
2200-2284).  Rust `String` payloads are modelled as their UTF-8 byte lists;
`String::from_utf8` becomes the `utf8Valid` check. -/

mutual
/-- `TezosPrim` (tezos.rs lines 1685-1695). -/
inductive TezosPrim where
  | Pair : TezosValue → TezosValue → TezosPrim
  | Elt : TezosValue → TezosValue → TezosPrim
  | Right : TezosValue → TezosPrim
  | Left : TezosValue → TezosPrim
  | Some : TezosValue → TezosPrim
  | Unit : TezosPrim
  | False : TezosPrim
  | True : TezosPrim
  | None : TezosPrim

/-- `TezosValue` (tezos.rs lines 1759-1765). -/
inductive TezosValue where
  | Bytes : List Byte → TezosValue
  | Int : ℤ → TezosValue
  | List : List TezosValue → TezosValue
  | TezosPrim : TezosPrim → TezosValue
  | String : List Byte → TezosValue
end

mutual
/-- `impl Serializable for TezosValue` (tezos.rs lines 1803-1875). -/
def serializeValue : TezosValue → List Byte
  | .String s => 1 :: (u32be s.length ++ s)
  | .Int n => 0 :: big_int_to_zarith_bytes n
  | .Bytes bs => 10 :: (u32be bs.length ++ bs)
  | .TezosPrim p => serializePrim p
  | .List items =>
      2 :: (u32be (serializeListItems items).length ++ serializeListItems items)

/-- The `TezosPrim` arms of `impl Serializable for TezosValue`. -/
def serializePrim : TezosPrim → List Byte
  | .Pair l r => 7 :: 7 :: (serializeValue l ++ serializeValue r)
  | .Elt k v => 7 :: 4 :: (serializeValue k ++ serializeValue v)
  | .Left v => 5 :: 5 :: serializeValue v
  | .Right v => 5 :: 8 :: serializeValue v
  | .Some v => 5 :: 9 :: serializeValue v
  | .Unit => [3, 11]
  | .None => [3, 6]
  | .True => [3, 10]
  | .False => [3, 3]

/-- Concatenated element encodings of a list value (the `for item in
list_items { bytes.append(&mut serialize(item).take()) }` loop). -/
def serializeListItems : List TezosValue → List Byte
  | [] => []
  | v :: vs => serializeValue v ++ serializeListItems vs
end

mutual
/-- `impl Deserializable for TezosValue` (tezos.rs lines 2200-2284).  `fuel`
bounds the recursion depth; every recursive call first consumes at least one
byte, so `fuel = input.length` always suffices, and exhausted fuel coincides
with the `UnexpectedEnd` a read from an empty slice produces. -/
def deserializeValue : ℕ → List Byte → PResult (TezosValue × List Byte)
  | 0, _ => .err .unexpectedEnd
  | f + 1, input =>
      (readByte input).bind fun (tag, r0) =>
      if tag.val = 0 then
        (readTezosInt r0).bind fun (n, r) => .ok (.Int n, r)
      else if tag.val = 1 then
        (readLenPrefixed r0).bind fun (bytes, r) =>
          if utf8Valid bytes then .ok (.String bytes, r) else .err .malformedData
      else if tag.val = 2 then
        (readLenPrefixed r0).bind fun (bytes, r) =>
          (deserializeListItems f bytes).bind fun items => .ok (.List items, r)
      else if tag.val = 3 then
        (readByte r0).bind fun (sub, r) =>
          if sub.val = 3 then .ok (.TezosPrim .False, r)
          else if sub.val = 6 then .ok (.TezosPrim .None, r)
          else if sub.val = 10 then .ok (.TezosPrim .True, r)
          else if sub.val = 11 then .ok (.TezosPrim .Unit, r)
          else .err .custom
      else if tag.val = 5 then
        (readByte r0).bind fun (sub, r) =>
          if sub.val = 5 then
            (deserializeValue f r).bind fun (v, r2) => .ok (.TezosPrim (.Left v), r2)
          else if sub.val = 8 then
            (deserializeValue f r).bind fun (v, r2) => .ok (.TezosPrim (.Right v), r2)
          else if sub.val = 9 then
            (deserializeValue f r).bind fun (v, r2) => .ok (.TezosPrim (.Some v), r2)
          else .err .custom
      else if tag.val = 7 then
        (readByte r0).bind fun (sub, r) =>
          if sub.val = 4 then
            (deserializeValue f r).bind fun (k, r2) =>
            (deserializeValue f r2).bind fun (v, r3) =>
            .ok (.TezosPrim (.Elt k v), r3)
          else if sub.val = 7 then
            (deserializeValue f r).bind fun (l, r2) =>
            (deserializeValue f r2).bind fun (rv, r3) =>
            .ok (.TezosPrim (.Pair l rv), r3)
          else .err .custom
      else if tag.val = 10 then
        (readLenPrefixed r0).bind fun (bytes, r) => .ok (.Bytes bytes, r)
      else .err .custom

/-- The `while !list_reader.is_finished()` loop of the list arm: decode
elements from the isolated slice until it is exhausted. -/
def deserializeListItems : ℕ → List Byte → PResult (List TezosValue)
  | _, [] => .ok []
  | 0, _ :: _ => .err .unexpectedEnd
  | f + 1, input =>
      (deserializeValue f input).bind fun (item, r) =>
      (deserializeListItems f r).bind fun items => .ok (item :: items)
end

/-- The crate-level `deserialize` function: run the decoder on the whole
slice, requiring full consumption (`Error::UnreadData` otherwise). -/
def deserializeValueFull (bytes : List Byte) : PResult TezosValue :=
  (deserializeValue bytes.length bytes).bind fun (v, r) =>
  if r.isEmpty then .ok v else .err .unreadData

/-! ### Operation codec (tezos.rs lines 2124-2199, 2329-2632) -/

/-- `CurveType` (ED25519 / SECP256K1 / P256). -/
inductive CurveType where
  | ED25519
  | SECP256K1
  | P256
deriving DecidableEq, Repr

/-- `PubkeyHash` (tezos.rs lines 2124-2158): a curve tag and an `H160`. -/
structure PubkeyHash where
  curve_type : CurveType
  hash : List Byte
deriving DecidableEq, Repr

/-- `impl Serializable for PubkeyHash`. -/
def serializePubkeyHash (p : PubkeyHash) : List Byte :=
  (match p.curve_type with
    | .ED25519 => (0 : Byte)
    | .SECP256K1 => 1
    | .P256 => 2) :: p.hash

/-- `impl Deserializable for PubkeyHash`. -/
def readPubkeyHash (input : List Byte) : PResult (PubkeyHash × List Byte) :=
  (readByte input).bind fun (curve_tag, r) =>
  (if curve_tag.val = 0 then PResult.ok CurveType.ED25519
   else if curve_tag.val = 1 then PResult.ok CurveType.SECP256K1
   else if curve_tag.val = 2 then PResult.ok CurveType.P256
   else PResult.err .malformedData).bind fun curve_type =>
  (read_slice 20 r).bind fun (hash, r2) =>
  .ok ({ curve_type := curve_type, hash := hash }, r2)

/-- `ContractId` (tezos.rs lines 2160-2198). -/
inductive ContractId where
  | PubkeyHash : PubkeyHash → ContractId
  | Originated : List Byte → ContractId
deriving DecidableEq, Repr

/-- `impl Serializable for ContractId`. -/
def serializeContractId : ContractId → List Byte
  | .PubkeyHash h => 0 :: serializePubkeyHash h
  | .Originated h => 1 :: (h ++ [0])

/-- `impl Deserializable for ContractId`. -/
def readContractId (input : List Byte) : PResult (ContractId × List Byte) :=
  (readByte input).bind fun (tag, r) =>
  if tag.val = 0 then
    (readPubkeyHash r).bind fun (h, r2) => .ok (.PubkeyHash h, r2)
  else if tag.val = 1 then
    (read_slice 20 r).bind fun (hash, r2) =>
    (readByte r2).bind fun (_padding, r3) => .ok (.Originated hash, r3)
  else .err .malformedData

/-- Modelled from the spec: the 4-byte base58-check prefix constants
`ED_PK_PREFIX` / `SECP_PK_PREFIX` / `P256_PK_PREFIX` live in
`tezos_constants.rs`, which is not under src/; only their distinctness
matters to the codec.  Values are the well-known `edpk` prefix bytes. -/
def ED_PK_PFX : List Byte := [13, 15, 37, 217]

/-- Modelled from the spec: the `sppk` prefix constant (see `ED_PK_PFX`). -/
def SECP_PK_PFX : List Byte := [3, 254, 226, 86]

/-- Modelled from the spec: the `p2pk` prefix constant (see `ED_PK_PFX`). -/
def P256_PK_PFX : List Byte := [3, 178, 139, 127]

/-- `TezosPubkey` (tezos.rs lines 136-140). -/
structure TezosPubkey where
  pfx : List Byte
  data : List Byte
deriving DecidableEq, Repr

/-- `impl Serializable for TezosPubkey` (tezos.rs lines 158-168).  The
`unimplemented!()` arm for an unknown prefix is a panic; the well-formedness
predicate used by the round-trip theorem rules it out, and it is modelled
here as an arbitrary value. -/
def serializeTezosPubkey (p : TezosPubkey) : List Byte :=
  (if p.pfx = ED_PK_PFX then [(0 : Byte)]
   else if p.pfx = SECP_PK_PFX then [1]
   else if p.pfx = P256_PK_PFX then [2]
   else []) ++ p.data

/-- `impl Deserializable for TezosPubkey` (tezos.rs lines 170-188). -/
def readTezosPubkey (input : List Byte) : PResult (TezosPubkey × List Byte) :=
  (readByte input).bind fun (tag, r) =>
  (if tag.val = 0 then PResult.ok (ED_PK_PFX, 32)
   else if tag.val = 1 then PResult.ok (SECP_PK_PFX, 33)
   else if tag.val = 2 then PResult.ok (P256_PK_PFX, 33)
   else PResult.err .custom).bind fun (pfx, len) =>
  (read_slice len r).bind fun (data, r2) =>
  .ok ({ pfx := pfx, data := data }, r2)

/-- `EntrypointId` (tezos.rs lines 2827-2835). -/
inductive EntrypointId where
  | Default
  | Root
  | Do
  | SetDelegate
  | RemoveDelegate
  | Named : List Byte → EntrypointId
deriving DecidableEq, Repr

/-- `impl Serializable for EntrypointId` (tezos.rs lines 2837-2852); a named
entrypoint's length is truncated to `u8`. -/
def serializeEntrypointId : EntrypointId → List Byte
  | .Default => [0]
  | .Root => [1]
  | .Do => [2]
  | .SetDelegate => [3]
  | .RemoveDelegate => [4]
  | .Named name => 255 :: ⟨name.length % 256, by omega⟩ :: name

/-- `impl Deserializable for EntrypointId` (tezos.rs lines 2854-2875). -/
def readEntrypointId (input : List Byte) : PResult (EntrypointId × List Byte) :=
  (readByte input).bind fun (tag, r) =>
  if tag.val = 0 then .ok (.Default, r)
  else if tag.val = 1 then .ok (.Root, r)
  else if tag.val = 2 then .ok (.Do, r)
  else if tag.val = 3 then .ok (.SetDelegate, r)
  else if tag.val = 4 then .ok (.RemoveDelegate, r)
  else if tag.val = 255 then
    (readByte r).bind fun (len, r2) =>
    (read_slice len.val r2).bind fun (bytes, r3) =>
    if utf8Valid bytes then .ok (.Named bytes, r3) else .err .custom
  else .err .custom

/-- `TezosTransaction` (tezos.rs lines 2329-2340); `TezosUint` fields are
`ℕ`. -/
structure TezosTransaction where
  source : ContractId
  fee : ℕ
  counter : ℕ
  gas_limit : ℕ
  storage_limit : ℕ
  amount : ℕ
  destination : ContractId
  parameters : Option TezosValue

/-- `BabylonTransactionParams` (tezos.rs lines 2342-2346). -/
structure BabylonTransactionParams where
  entrypoint : EntrypointId
  params : TezosValue

/-- `BabylonTransaction` (tezos.rs lines 2348-2358). -/
structure BabylonTransaction where
  source : PubkeyHash
  fee : ℕ
  counter : ℕ
  gas_limit : ℕ
  storage_limit : ℕ
  amount : ℕ
  destination : ContractId
  parameters : Option BabylonTransactionParams

/-- `RevealOp` (tezos.rs lines 2487-2495). -/
structure RevealOp where
  source : PubkeyHash
  fee : ℕ
  counter : ℕ
  gas_limit : ℕ
  storage_limit : ℕ
  public_key : TezosPubkey
deriving DecidableEq, Repr

/-- `read_parameters` (tezos.rs lines 2360-2374).  With presence flag 255 the
code reads a length-prefixed blob and calls `deserialize(&bytes[1..])`;
slicing `[1..]` out of a zero-length vector is an out-of-bounds panic. -/
def read_parameters (input : List Byte) : PResult (Option TezosValue × List Byte) :=
  (readByte input).bind fun (has_parameters, r) =>
  if has_parameters.val = 0 then .ok (none, r)
  else if has_parameters.val = 255 then
    (readLenPrefixed r).bind fun (bytes, r2) =>
    if bytes.isEmpty then .panicked
    else
      (deserializeValueFull (bytes.drop 1)).bind fun v => .ok (some v, r2)
  else .err .malformedData

/-- `read_babylon_parameters` (tezos.rs lines 2376-2394). -/
def read_babylon_parameters (input : List Byte) :
    PResult (Option BabylonTransactionParams × List Byte) :=
  (readByte input).bind fun (has_parameters, r) =>
  if has_parameters.val = 0 then .ok (none, r)
  else if has_parameters.val = 255 then
    (readEntrypointId r).bind fun (entrypoint, r2) =>
    (readLenPrefixed r2).bind fun (bytes, r3) =>
    (deserializeValueFull bytes).bind fun v =>
    .ok (some { entrypoint := entrypoint, params := v }, r3)
  else .err .malformedData

/-- `impl Serializable for TezosTransaction` (tezos.rs lines 2413-2436): a
present parameter value is wrapped in a length prefix counting one extra
spurious zero byte, then that zero byte, then the encoding. -/
def serializeTezosTransaction (tx : TezosTransaction) : List Byte :=
  serializeContractId tx.source ++
  big_uint_to_zarith_bytes tx.fee ++
  big_uint_to_zarith_bytes tx.counter ++
  big_uint_to_zarith_bytes tx.gas_limit ++
  big_uint_to_zarith_bytes tx.storage_limit ++
  big_uint_to_zarith_bytes tx.amount ++
  serializeContractId tx.destination ++
  (match tx.parameters with
    | some params =>
        255 :: (u32be ((serializeValue params).length + 1) ++
          (0 :: serializeValue params))
    | none => [0])

/-- `impl Deserializable for TezosTransaction` (tezos.rs lines 2396-2411). -/
def readTezosTransaction (input : List Byte) : PResult (TezosTransaction × List Byte) :=
  (readContractId input).bind fun (source, r1) =>
  (readTezosUint r1).bind fun (fee, r2) =>
  (readTezosUint r2).bind fun (counter, r3) =>
  (readTezosUint r3).bind fun (gas_limit, r4) =>
  (readTezosUint r4).bind fun (storage_limit, r5) =>
  (readTezosUint r5).bind fun (amount, r6) =>
  (readContractId r6).bind fun (destination, r7) =>
  (read_parameters r7).bind fun (parameters, r8) =>
  .ok ({ source := source, fee := fee, counter := counter, gas_limit := gas_limit,
         storage_limit := storage_limit, amount := amount, destination := destination,
         parameters := parameters }, r8)

/-- `impl Serializable for BabylonTransaction` (tezos.rs lines 2438-2461). -/
def serializeBabylonTransaction (tx : BabylonTransaction) : List Byte :=
  serializePubkeyHash tx.source ++
  big_uint_to_zarith_bytes tx.fee ++
  big_uint_to_zarith_bytes tx.counter ++
  big_uint_to_zarith_bytes tx.gas_limit ++
  big_uint_to_zarith_bytes tx.storage_limit ++
  big_uint_to_zarith_bytes tx.amount ++
  serializeContractId tx.destination ++
  (match tx.parameters with
    | some params =>
        255 :: (serializeEntrypointId params.entrypoint ++
          u32be (serializeValue params.params).length ++ serializeValue params.params)
    | none => [0])

/-- `impl Deserializable for BabylonTransaction` (tezos.rs lines 2463-2478). -/
def readBabylonTransaction (input : List Byte) :
    PResult (BabylonTransaction × List Byte) :=
  (readPubkeyHash input).bind fun (source, r1) =>
  (readTezosUint r1).bind fun (fee, r2) =>
  (readTezosUint r2).bind fun (counter, r3) =>
  (readTezosUint r3).bind fun (gas_limit, r4) =>
  (readTezosUint r4).bind fun (storage_limit, r5) =>
  (readTezosUint r5).bind fun (amount, r6) =>
  (readContractId r6).bind fun (destination, r7) =>
  (read_babylon_parameters r7).bind fun (parameters, r8) =>
  .ok ({ source := source, fee := fee, counter := counter, gas_limit := gas_limit,
         storage_limit := storage_limit, amount := amount, destination := destination,
         parameters := parameters }, r8)

/-- `impl Serializable for RevealOp` (tezos.rs lines 2497-2506). -/
def serializeRevealOp (op : RevealOp) : List Byte :=
  serializePubkeyHash op.source ++
  big_uint_to_zarith_bytes op.fee ++
  big_uint_to_zarith_bytes op.counter ++
  big_uint_to_zarith_bytes op.gas_limit ++
  big_uint_to_zarith_bytes op.storage_limit ++
  serializeTezosPubkey op.public_key

/-- `impl Deserializable for RevealOp` (tezos.rs lines 2508-2521). -/
def readRevealOp (input : List Byte) : PResult (RevealOp × List Byte) :=
  (readPubkeyHash input).bind fun (source, r1) =>
  (readTezosUint r1).bind fun (fee, r2) =>
  (readTezosUint r2).bind fun (counter, r3) =>
  (readTezosUint r3).bind fun (gas_limit, r4) =>
  (readTezosUint r4).bind fun (storage_limit, r5) =>
  (readTezosPubkey r5).bind fun (public_key, r6) =>
  .ok ({ source := source, fee := fee, counter := counter, gas_limit := gas_limit,
         storage_limit := storage_limit, public_key := public_key }, r6)

/-- `TezosOperationEnum` (tezos.rs lines 2480-2485). -/
inductive TezosOperationEnum where
  | Transaction : TezosTransaction → TezosOperationEnum
  | BabylonTransaction : BabylonTransaction → TezosOperationEnum
  | Reveal : RevealOp → TezosOperationEnum

/-- `TezosOperation` (tezos.rs lines 2523-2528): `branch` is an `H256`
(32 bytes), `signature` an optional `H512` (64 bytes). -/
structure TezosOperation where
  branch : List Byte
  contents : List TezosOperationEnum
  signature : Option (List Byte)

/-- The encoding of one operation content inside
`impl Serializable for TezosOperation`: the variant tag byte followed by the
operation's encoding. -/
def serializeContent : TezosOperationEnum → List Byte
  | .Transaction tx => 8 :: serializeTezosTransaction tx
  | .BabylonTransaction tx => 108 :: serializeBabylonTransaction tx
  | .Reveal tx => 107 :: serializeRevealOp tx

/-- The concatenated encodings of an operation's contents (the
`for op in self.contents.iter()` loop). -/
def serializeContents : List TezosOperationEnum → List Byte
  | [] => []
  | c :: cs => serializeContent c ++ serializeContents cs

/-- `impl Serializable for TezosOperation` (tezos.rs lines 2609-2632). -/
def serializeTezosOperation (op : TezosOperation) : List Byte :=
  op.branch ++
  serializeContents op.contents ++
  (match op.signature with
    | some sig => sig
    | none => [])

/-- One iteration of the speculative content parse inside
`TezosOperation::deserialize`: read a tag and the corresponding operation
from the buffer.  (The Rust code propagates a failed *tag* read with `?`
instead of breaking to the signature check; that happens only on an empty
buffer, whose length is never 64, so both routes return the same error.) -/
def speculativeReadOp (buffer : List Byte) :
    PResult (TezosOperationEnum × List Byte) :=
  (readByte buffer).bind fun (tag, r) =>
  if tag.val = 8 then
    (readTezosTransaction r).bind fun (tx, r2) => .ok (.Transaction tx, r2)
  else if tag.val = 107 then
    (readRevealOp r).bind fun (tx, r2) => .ok (.Reveal tx, r2)
  else if tag.val = 108 then
    (readBabylonTransaction r).bind fun (tx, r2) => .ok (.BabylonTransaction tx, r2)
  else .err .custom

/-- The `loop` of `TezosOperation::deserialize` (tezos.rs lines 2558-2605):
speculatively parse one more operation; on success with an exhausted reader
return the envelope without signature, on success with bytes left continue,
and on failure treat an exactly-64-byte remainder as the `H512` signature,
otherwise report the parse error.  `fuel` bounds the iterations; each one
consumes at least the tag byte, so `buffer.length + 1` always suffices, and
exhausted fuel coincides with the empty-buffer `UnexpectedEnd`. -/
def opContentsLoop (branch : List Byte) :
    ℕ → List Byte → List TezosOperationEnum → PResult TezosOperation
  | 0, _, _ => .err .unexpectedEnd
  | fuel + 1, buffer, contents =>
      match speculativeReadOp buffer with
      | .panicked => .panicked
      | .err e =>
          if buffer.length = 64 then
            (read_slice 64 buffer).bind fun (sig, _) =>
              .ok { branch := branch, contents := contents, signature := some sig }
          else .err e
      | .ok (op, remaining) =>
          if remaining.isEmpty then
            .ok { branch := branch, contents := contents ++ [op], signature := none }
          else opContentsLoop branch fuel remaining (contents ++ [op])

/-- `impl Deserializable for TezosOperation` (tezos.rs lines 2542-2607). -/
def deserializeTezosOperation (input : List Byte) : PResult TezosOperation :=
  (read_slice 32 input).bind fun (branch, rest) =>
  opContentsLoop branch (rest.length + 1) rest []

/-! ### Well-formedness of operation envelopes

The Rust types carry invariants the Lean embedding states explicitly: hash
wrappers have fixed sizes, `String`s are valid UTF-8, `Vec` lengths written
through `as u32` / `as u8` casts must fit, and a `TezosPubkey` prefix must be
one of the three constants (else serialization is `unimplemented!()`). -/

mutual
/-- Well-formed `TezosValue`: strings are valid UTF-8 and every payload
length written as `u32` fits in 32 bits. -/
def wfValue : TezosValue → Bool
  | .Bytes bs => decide (bs.length < 4294967296)
  | .Int _ => true
  | .String s => utf8Valid s && decide (s.length < 4294967296)
  | .TezosPrim p => wfPrim p
  | .List items =>
      wfListItems items && decide ((serializeListItems items).length < 4294967296)

/-- Well-formed `TezosPrim`. -/
def wfPrim : TezosPrim → Bool
  | .Pair l r => wfValue l && wfValue r
  | .Elt l r => wfValue l && wfValue r
  | .Left v => wfValue v
  | .Right v => wfValue v
  | .Some v => wfValue v
  | .Unit => true
  | .False => true
  | .True => true
  | .None => true

/-- Well-formedness of each element of a list value. -/
def wfListItems : List TezosValue → Bool
  | [] => true
  | v :: vs => wfValue v && wfListItems vs
end

/-- Well-formed `PubkeyHash`: the `H160` is 20 bytes. -/
def wfPubkeyHash (p : PubkeyHash) : Bool :=
  decide (p.hash.length = 20)

/-- Well-formed `ContractId`. -/
def wfContractId : ContractId → Bool
  | .PubkeyHash h => wfPubkeyHash h
  | .Originated h => decide (h.length = 20)

/-- Well-formed `TezosPubkey`: a known curve prefix with the matching key
size (32 bytes for ed25519, 33 for the compressed secp256k1/P-256 keys). -/
def wfTezosPubkey (p : TezosPubkey) : Bool :=
  (decide (p.pfx = ED_PK_PFX) && decide (p.data.length = 32)) ||
  (decide (p.pfx = SECP_PK_PFX) && decide (p.data.length = 33)) ||
  (decide (p.pfx = P256_PK_PFX) && decide (p.data.length = 33))

/-- Well-formed `EntrypointId`: a named entrypoint is valid UTF-8 and its
length fits the `u8` prefix. -/
def wfEntrypointId : EntrypointId → Bool
  | .Named name => utf8Valid name && decide (name.length < 256)
  | _ => true

/-- Well-formed `TezosTransaction`. -/
def wfTezosTransaction (tx : TezosTransaction) : Bool :=
  wfContractId tx.source && wfContractId tx.destination &&
  (match tx.parameters with
    | some params => wfValue params && decide ((serializeValue params).length + 1 < 4294967296)
    | none => true)

/-- Well-formed `BabylonTransaction`. -/
def wfBabylonTransaction (tx : BabylonTransaction) : Bool :=
  wfPubkeyHash tx.source && wfContractId tx.destination &&
  (match tx.parameters with
    | some params => wfEntrypointId params.entrypoint && wfValue params.params &&
        decide ((serializeValue params.params).length < 4294967296)
    | none => true)

/-- Well-formed `RevealOp`. -/
def wfRevealOp (op : RevealOp) : Bool :=
  wfPubkeyHash op.source && wfTezosPubkey op.public_key

/-- Well-formed operation content. -/
def wfOperationEnum : TezosOperationEnum → Bool
  | .Transaction tx => wfTezosTransaction tx
  | .BabylonTransaction tx => wfBabylonTransaction tx
  | .Reveal op => wfRevealOp op

/-- Well-formedness of every content of a list. -/
def wfContents : List TezosOperationEnum → Bool
  | [] => true
  | c :: cs => wfOperationEnum c && wfContents cs

/-! ### Structural size of a `TezosValue` (a fuel bound for the decoder) -/

mutual
/-- A depth-like size of a `TezosValue`: an upper bound on the decoder fuel
needed for the value (strictly less than the encoding's length). -/
def szValue : TezosValue → ℕ
  | .Bytes _ => 1
  | .Int _ => 1
  | .String _ => 1
  | .TezosPrim p => szPrim p
  | .List items => szItems items + 1

/-- Size of a `TezosPrim` (see `szValue`). -/
def szPrim : TezosPrim → ℕ
  | .Pair l r => max (szValue l) (szValue r) + 1
  | .Elt l r => max (szValue l) (szValue r) + 1
  | .Left v => szValue v + 1
  | .Right v => szValue v + 1
  | .Some v => szValue v + 1
  | .Unit => 1
  | .False => 1
  | .True => 1
  | .None => 1

/-- Size of the element list of a list value (see `szValue`). -/
def szItems : List TezosValue → ℕ
  | [] => 0
  | v :: vs => max (szValue v) (szItems vs) + 1
end

/-- Whether a `PResult` is the panic outcome. -/
def isPanicked {α : Type} : PResult α → Bool
  | .panicked => true
  | _ => false

/-- The number of contents of a successfully decoded operation (`none` on
error or panic); used to compare decoding results without equality on
`TezosOperation`. -/
def resultContentsLen : PResult TezosOperation → Option ℕ
  | .ok op => some op.contents.length
  | _ => none

/-- A serialized `TezosOperation` carrying one tag-8 transaction whose
parameter blob has presence flag 255 and length 0: 32 branch bytes, the tag,
an implicit (tag-0, curve-0) source with a 20-byte hash, five zero zarith
amounts, an implicit destination, then `[255, 0, 0, 0, 0]`. -/
def c9input : List Byte :=
  List.replicate 32 0 ++ [8] ++
  (0 :: 0 :: List.replicate 20 0) ++ [0, 0, 0, 0, 0] ++
  (0 :: 0 :: List.replicate 20 0) ++ [255, 0, 0, 0, 0]

/-- A minimal well-formed `RevealOp`: zero fees over an all-zero ed25519
source hash and an all-zero ed25519 public key. -/
def c4reveal : RevealOp :=
  { source := { curve_type := .ED25519, hash := List.replicate 20 0 }
    fee := 0, counter := 0, gas_limit := 0, storage_limit := 0
    public_key := { pfx := ED_PK_PFX, data := List.replicate 32 0 } }

/-- A 64-byte "signature" that itself parses as a tagged Reveal operation:
tag 107, a 21-byte source, a 6-byte zarith fee, three zero amounts and a
33-byte ed25519 public key. -/
def c4sig : List Byte :=
  [107, 0] ++ List.replicate 20 0 ++
  [128, 128, 128, 128, 128, 1, 0, 0, 0, 0] ++ List.replicate 32 0

/-- The C4 counterexample operation: one Reveal content and the adversarial
64-byte signature `c4sig`. -/
def c4op : TezosOperation :=
  { branch := List.replicate 32 0, contents := [.Reveal c4reveal],
    signature := some c4sig }

/-- The C4 witness operation: one Reveal content and an all-zero 64-byte
signature (whose leading byte 0 is not an operation tag). -/
def c4edgeOp : TezosOperation :=
  { branch := List.replicate 32 0, contents := [.Reveal c4reveal],
    signature := some (List.replicate 64 0) }

/-! ### Orderbook operation sequences (for the `Orderbook` invariant) -/

/-- `P` holds of the value under `some`; `False` at `none`. -/
def optHolds {α : Type} (P : α → Prop) : Option α → Prop
  | some a => P a
  | none => False

instance {α : Type} (P : α → Prop) [DecidablePred P] :
    (x : Option α) → Decidable (optHolds P x)
  | some a => inferInstanceAs (Decidable (P a))
  | none => inferInstanceAs (Decidable False)

/-- The claim's orderbook invariant: every uuid indexed in `ordered` or
`unordered` has an `order_set` entry, and every uuid in a pubkey's pair trie
has an `order_set` entry with that pubkey. -/
def OrderbookClaimInv (ob : Orderbook) : Prop :=
  (∀ e ∈ ob.ordered, ∀ pu ∈ e.2, (hmGet ob.order_set pu.2).isSome = true) ∧
  (∀ e ∈ ob.unordered, ∀ u ∈ e.2, (hmGet ob.order_set u).isSome = true) ∧
  (∀ pe ∈ ob.pubkeys_state, ∀ te ∈ pe.2.trie_roots, ∀ kv ∈ te.2.getD [],
    optHolds (fun o => o.pubkey = pe.1) (hmGet ob.order_set kv.1))

instance (ob : Orderbook) : Decidable (OrderbookClaimInv ob) := by
  unfold OrderbookClaimInv
  infer_instance

/-- Strengthened invariant closed under the orderbook operations: indexed
entries also agree with the `order_set` item's price and pair, and trie keys
with its pair. -/
def OrderbookInv (ob : Orderbook) : Prop :=
  (∀ e ∈ ob.ordered, ∀ pu ∈ e.2,
    optHolds (fun o => o.price = pu.1 ∧ o.base = e.1.1 ∧ o.rel = e.1.2)
      (hmGet ob.order_set pu.2)) ∧
  (∀ e ∈ ob.unordered, ∀ u ∈ e.2,
    optHolds (fun o => o.base = e.1.1 ∧ o.rel = e.1.2) (hmGet ob.order_set u)) ∧
  (∀ pe ∈ ob.pubkeys_state, ∀ te ∈ pe.2.trie_roots, ∀ kv ∈ te.2.getD [],
    optHolds (fun o => o.pubkey = pe.1 ∧ alb_ordered_pair o.base o.rel = te.1)
      (hmGet ob.order_set kv.1))

instance (ob : Orderbook) : Decidable (OrderbookInv ob) := by
  unfold OrderbookInv
  infer_instance

/-- One orderbook mutation, as listed in the claim.  (An
`apply_updated`-then-re-insert is an insert of the updated item.)  The
`now_ms()` timestamp passed to the state constructors only seeds
`last_keep_alive`, which none of the claims consult; it is fixed to 0. -/
inductive OBOp where
  | insertOrUpdate : OrderbookItem → OBOp
  | insertOrUpdateTrie : OrderbookItem → OBOp
  | removeOrder : Uuid → OBOp
  | removeOrderTrie : Uuid → OBOp
deriving DecidableEq, Repr

/-- Applying one operation to the orderbook. -/
def applyOp (ob : Orderbook) : OBOp → Orderbook
  | .insertOrUpdate o => ob.insert_or_update_order o 0
  | .insertOrUpdateTrie o => ob.insert_or_update_order_update_trie o 0
  | .removeOrder u => (ob.remove_order u).2
  | .removeOrderTrie u => (ob.remove_order_trie_update u 0).2

/-- A (re-)insertion is benign if any existing `order_set` entry for the
uuid agrees on price, pair and pubkey. -/
def insertOk (ob : Orderbook) (o : OrderbookItem) : Prop :=
  optHolds (fun o2 => o2.price = o.price ∧ o2.base = o.base ∧ o2.rel = o.rel ∧
      o2.pubkey = o.pubkey) (hmGet ob.order_set o.uuid) ∨
  hmGet ob.order_set o.uuid = none

/-- Side condition under which an operation preserves the invariant:
re-insertions agree with the existing entry, and the plain (non-trie)
`remove_order` is not applied to a uuid still present in some pubkey trie. -/
def opOk (ob : Orderbook) : OBOp → Prop
  | .insertOrUpdate o => insertOk ob o
  | .insertOrUpdateTrie o => insertOk ob o
  | .removeOrder u =>
      ∀ pe ∈ ob.pubkeys_state, ∀ te ∈ pe.2.trie_roots, ∀ kv ∈ te.2.getD [],
        ¬ kv.1 = u
  | .removeOrderTrie _ => True

instance (ob : Orderbook) (o : OrderbookItem) : Decidable (insertOk ob o) := by
  unfold insertOk
  infer_instance

instance opOk.dec (ob : Orderbook) : (op : OBOp) → Decidable (opOk ob op)
  | .insertOrUpdate o => by unfold opOk; infer_instance
  | .insertOrUpdateTrie o => by unfold opOk; infer_instance
  | .removeOrder u => by unfold opOk; infer_instance
  | .removeOrderTrie u => by unfold opOk; infer_instance

/-- All operations of the sequence satisfy their side condition in the state
where they are applied. -/
def ValidOps : Orderbook → List OBOp → Prop
  | _, [] => True
  | ob, op :: ops => opOk ob op ∧ ValidOps (applyOp ob op) ops

instance ValidOps.dec : (ob : Orderbook) → (ops : List OBOp) → Decidable (ValidOps ob ops)
  | _, [] => inferInstanceAs (Decidable True)
  | ob, op :: ops =>
      haveI : Decidable (ValidOps (applyOp ob op) ops) := ValidOps.dec _ _
      inferInstanceAs (Decidable (opOk ob op ∧ ValidOps (applyOp ob op) ops))

/-! ## Theorems -/

/-! ### Association-list helper lemmas -/

theorem find_none_of_hmContains_false {κ α : Type} [DecidableEq κ]
    {m : List (κ × α)} {k : κ} (h : hmContains m k = false) :
    m.find? (fun e => decide (e.1 = k)) = none := by
  unfold hmContains at h
  cases hf : m.find? (fun e => decide (e.1 = k)) with
  | none => rfl
  | some v => rw [hf] at h; simp at h

theorem find_filter_none {κ α : Type} [DecidableEq κ]
    {m : List (κ × α)} {k : κ} (q : κ × α → Bool)
    (h : m.find? (fun e => decide (e.1 = k)) = none) :
    (m.filter q).find? (fun e => decide (e.1 = k)) = none := by
  rw [List.find?_eq_none] at h ⊢
  intro x hx
  exact h x (List.mem_of_mem_filter hx)

theorem hmGet_hmInsert_self {κ α : Type} [DecidableEq κ]
    (m : List (κ × α)) (k : κ) (v : α) : hmGet (hmInsert m k v) k = some v := by
  simp [hmGet, hmInsert, List.find?_cons]

theorem find_filter_comm {κ α : Type} [DecidableEq κ]
    (m : List (κ × α)) (k k2 : κ) (hne : ¬ k2 = k) :
    (m.filter (fun e => decide (¬ e.1 = k))).find? (fun e => decide (e.1 = k2)) =
      m.find? (fun e => decide (e.1 = k2)) := by
  induction m with
  | nil => rfl
  | cons e es ih =>
      by_cases hk : e.1 = k
      · rw [List.filter_cons_of_neg (by simp [hk])]
        rw [ih, List.find?_cons_of_neg]
        simp only [decide_eq_true_eq]
        intro hc
        exact hne (hc ▸ hk)
      · rw [List.filter_cons_of_pos (by simp [hk])]
        by_cases h2 : e.1 = k2
        · have hd : (decide (e.1 = k2)) = true := by simp [h2]
          rw [List.find?_cons, List.find?_cons, hd]
        · have hd : (decide (e.1 = k2)) = false := by simp [h2]
          rw [List.find?_cons, List.find?_cons, hd]
          exact ih

theorem hmGet_hmInsert_ne {κ α : Type} [DecidableEq κ]
    (m : List (κ × α)) (k k2 : κ) (v : α) (hne : ¬ k2 = k) :
    hmGet (hmInsert m k v) k2 = hmGet m k2 := by
  have hk : (decide ((k, v).1 = k2)) = false := by
    simp only [decide_eq_false_iff_not]
    exact fun hc => hne hc.symm
  simp only [hmGet, hmInsert, List.find?_cons, hk]
  rw [find_filter_comm m k k2 hne]

theorem hmGet_mem {κ α : Type} [DecidableEq κ] {m : List (κ × α)} {k : κ} {v : α}
    (h : hmGet m k = some v) : (k, v) ∈ m := by
  unfold hmGet at h
  cases hf : m.find? (fun e => decide (e.1 = k)) with
  | none => rw [hf] at h; cases h
  | some e2 =>
      rw [hf] at h
      have hv : e2.2 = v := by
        simpa using h
      have hmem := List.mem_of_find?_eq_some hf
      have hk0 := List.find?_some hf
      have hk : e2.1 = k := by simpa using hk0
      have : (k, v) = e2 := by
        cases e2
        cases hk
        cases hv
        rfl
      rwa [this]

theorem hmGet_eq_none_iff {κ α : Type} [DecidableEq κ] {m : List (κ × α)} {k : κ} :
    hmGet m k = none ↔ ∀ e ∈ m, ¬ e.1 = k := by
  unfold hmGet
  cases hf : m.find? (fun e => decide (e.1 = k)) with
  | none =>
      simp only [Option.map_none']
      rw [List.find?_eq_none] at hf
      simpa using hf
  | some e2 =>
      simp only [Option.map_some']
      constructor
      · intro h; cases h
      · intro hall
        have hk0 := List.find?_some hf
        have hk : e2.1 = k := by simpa using hk0
        exact absurd hk (hall e2 (List.mem_of_find?_eq_some hf))

theorem hmGet_hmRemove_self {κ α : Type} [DecidableEq κ] (m : List (κ × α)) (k : κ) :
    hmGet (hmRemove m k).2 k = none := by
  have h2 : (hmRemove m k).2 = m.filter (fun e => decide (¬ e.1 = k)) := rfl
  rw [h2]
  unfold hmGet
  have hf : (m.filter (fun e => decide (¬ e.1 = k))).find?
      (fun e => decide (e.1 = k)) = none := by
    rw [List.find?_eq_none]
    intro e he
    have := (List.mem_filter.mp he).2
    simpa using this
  rw [hf]
  rfl

theorem hmGet_hmRemove_ne {κ α : Type} [DecidableEq κ] (m : List (κ × α)) (k k2 : κ)
    (hne : ¬ k2 = k) : hmGet (hmRemove m k).2 k2 = hmGet m k2 := by
  have h2 : (hmRemove m k).2 = m.filter (fun e => decide (¬ e.1 = k)) := rfl
  rw [h2]
  unfold hmGet
  rw [find_filter_comm m k k2 hne]

theorem mem_hmRemove {κ α : Type} [DecidableEq κ] {m : List (κ × α)} {k : κ}
    {e : κ × α} (h : e ∈ (hmRemove m k).2) : e ∈ m ∧ ¬ e.1 = k := by
  unfold hmRemove at h
  have := List.mem_filter.mp h
  exact ⟨this.1, by simpa using this.2⟩

theorem mem_hmInsert {κ α : Type} [DecidableEq κ] {m : List (κ × α)} {k : κ} {v : α}
    {e : κ × α} (h : e ∈ hmInsert m k v) : e = (k, v) ∨ (e ∈ m ∧ ¬ e.1 = k) := by
  unfold hmInsert at h
  rcases List.mem_cons.mp h with h | h
  · exact Or.inl h
  · have := List.mem_filter.mp h
    exact Or.inr ⟨this.1, by simpa using this.2⟩

theorem mem_hsInsert {α : Type} [DecidableEq α] {s : List α} {x y : α}
    (h : y ∈ hsInsert s x) : y = x ∨ y ∈ s := by
  unfold hsInsert at h
  by_cases hx : x ∈ s
  · rw [if_pos hx] at h
    exact Or.inr h
  · rw [if_neg hx] at h
    rcases List.mem_cons.mp h with h | h
    · exact Or.inl h
    · exact Or.inr h

theorem mem_hsRemove {α : Type} [DecidableEq α] {s : List α} {x y : α}
    (h : y ∈ hsRemove s x) : y ∈ s ∧ ¬ y = x := by
  unfold hsRemove at h
  have := List.mem_filter.mp h
  exact ⟨this.1, by simpa using this.2⟩

theorem mem_removeFromIndex {β : Type} [DecidableEq β]
    {idx : List ((String × String) × List β)} {br : String × String} {x : β}
    {e : (String × String) × List β} (he : e ∈ removeFromIndex idx br x) :
    (∃ e0 ∈ idx, e.1 = e0.1 ∧ ∀ y ∈ e.2, y ∈ e0.2) ∧
      (e.1 = br → ∀ y ∈ e.2, ¬ y = x) := by
  unfold removeFromIndex at he
  cases hg : hmGet idx br with
  | none =>
      rw [hg] at he
      refine ⟨⟨e, he, rfl, fun y hy => hy⟩, fun hbr y hy => ?_⟩
      rw [hmGet_eq_none_iff] at hg
      exact absurd hbr (hg e he)
  | some s =>
      rw [hg] at he
      replace he : e ∈ (if (hsRemove s x).isEmpty then (hmRemove idx br).2
          else hmInsert idx br (hsRemove s x)) := he
      by_cases hemp : (hsRemove s x).isEmpty
      · rw [if_pos hemp] at he
        have hme := mem_hmRemove he
        exact ⟨⟨e, hme.1, rfl, fun y hy => hy⟩, fun hbr => absurd hbr hme.2⟩
      · rw [if_neg hemp] at he
        rcases mem_hmInsert he with h | h
        · subst h
          refine ⟨⟨(br, s), hmGet_mem hg, rfl, fun y hy => (mem_hsRemove hy).1⟩,
            fun _ y hy => (mem_hsRemove hy).2⟩
        · exact ⟨⟨e, h.1, rfl, fun y hy => hy⟩, fun hbr => absurd hbr h.2⟩

theorem mem_insertIntoIndex {β : Type} [DecidableEq β]
    {idx : List ((String × String) × List β)} {br : String × String} {x : β}
    {e : (String × String) × List β} (he : e ∈ insertIntoIndex idx br x) :
    (e.1 = br ∧ ∀ y ∈ e.2, y = x ∨ ∃ e0 ∈ idx, e0.1 = br ∧ y ∈ e0.2) ∨
      (e ∈ idx ∧ ¬ e.1 = br) := by
  unfold insertIntoIndex at he
  rcases mem_hmInsert he with h | h
  · subst h
    refine Or.inl ⟨rfl, fun y hy => ?_⟩
    rcases mem_hsInsert hy with h | h
    · exact Or.inl h
    · cases hg : hmGet idx br with
      | none => rw [hg] at h; cases h
      | some s =>
          rw [hg] at h
          exact Or.inr ⟨(br, s), hmGet_mem hg, rfl, h⟩
  · exact Or.inr h

/-! ### C8: TrieDiffHistory insertion -/

theorem hmInsert_idem {κ α : Type} [DecidableEq κ] (m : List (κ × α)) (k : κ) (v : α) :
    hmInsert (hmInsert m k v) k v = hmInsert m k v := by
  unfold hmInsert
  rw [List.filter_cons_of_neg (by simp), List.filter_filter]
  simp

theorem insert_new_diff_not_contains {R K V : Type} [DecidableEq R]
    (inner : List (R × TrieDiff R K V)) (insert_at : R) (diff : TrieDiff R K V)
    (hia : ¬ insert_at = diff.next_root)
    (hC : hmContains inner diff.next_root = false) :
    insert_new_diff inner insert_at diff = hmInsert inner insert_at diff := by
  rw [insert_new_diff, if_neg hia]
  simp only [hmRemove, find_none_of_hmContains_false hC, Option.map_none']

theorem hmContains_hmInsert_false {κ α : Type} [DecidableEq κ]
    (m : List (κ × α)) (k k2 : κ) (v : α) (hne : ¬ k = k2)
    (hC : hmContains m k2 = false) : hmContains (hmInsert m k v) k2 = false := by
  unfold hmContains hmInsert
  have hd : (decide (((k, v) : κ × α).1 = k2)) = false := by simp [hne]
  rw [List.find?_cons, hd]
  show (List.find? (fun e => decide (e.1 = k2))
    (List.filter (fun e => decide (¬ e.1 = k)) m)).isSome = false
  rw [find_filter_none _ (find_none_of_hmContains_false hC)]
  rfl

/-- C8 counterexample: in the history `{2 ↦ TrieDiff{[], next_root := 3}}`,
inserting `(1, TrieDiff{[], next_root := 2})` twice does not equal inserting
it once — the first insertion only prunes the chain hanging at root 2 and
never stores key 1, while the second insertion stores it, so the claimed
idempotence fails on this concrete state. -/
theorem insertNewDiff_idempotent_cex :
    insert_new_diff
        (insert_new_diff [((2 : H64), (⟨[], 3⟩ : TrieDiff H64 ℕ ℕ))] 1 ⟨[], 2⟩)
        1 ⟨[], 2⟩ ≠
      insert_new_diff [((2 : H64), (⟨[], 3⟩ : TrieDiff H64 ℕ ℕ))] 1 ⟨[], 2⟩ ∧
    hmContains
      (insert_new_diff [((2 : H64), (⟨[], 3⟩ : TrieDiff H64 ℕ ℕ))] 1 ⟨[], 2⟩) 1 = false ∧
    hmContains
      (insert_new_diff
        (insert_new_diff [((2 : H64), (⟨[], 3⟩ : TrieDiff H64 ℕ ℕ))] 1 ⟨[], 2⟩)
        1 ⟨[], 2⟩) 1 = true := by
  refine ⟨?_, by decide, by decide⟩
  decide

/-- C8 amended: inserting the same `(insert_at, diff)` pair twice is
idempotent provided `diff.next_root` is not already a key of the history
(so the first insertion takes the plain-insert branch rather than the
chain-pruning branch); and inserting a diff with `insert_at = diff.next_root`
always leaves the history unchanged. -/
theorem insertNewDiff_amended :
    (∀ (K V : Type) (inner : List (H64 × TrieDiff H64 K V)) (insert_at : H64)
      (diff : TrieDiff H64 K V), hmContains inner diff.next_root = false →
      insert_new_diff (insert_new_diff inner insert_at diff) insert_at diff =
        insert_new_diff inner insert_at diff) ∧
    (∀ (K V : Type) (inner : List (H64 × TrieDiff H64 K V)) (insert_at : H64)
      (diff : TrieDiff H64 K V), insert_at = diff.next_root →
      insert_new_diff inner insert_at diff = inner) := by
  constructor
  · intro K V inner ia d hC
    by_cases hia : ia = d.next_root
    · have h1 : insert_new_diff inner ia d = inner := by rw [insert_new_diff, if_pos hia]
      rw [h1]
      exact h1
    · rw [insert_new_diff_not_contains inner ia d hia hC]
      rw [insert_new_diff_not_contains _ ia d hia
        (hmContains_hmInsert_false inner ia d.next_root d (fun h => hia h) hC)]
      exact hmInsert_idem inner ia d
  · intro K V inner ia d hia
    rw [insert_new_diff, if_pos hia]

/-- Witness for `insertNewDiff_amended` at concrete inputs. -/
theorem insertNewDiff_amended_witness :
    (hmContains ([] : List (H64 × TrieDiff H64 ℕ ℕ)) 2 = false ∧
      insert_new_diff (insert_new_diff ([] : List (H64 × TrieDiff H64 ℕ ℕ)) 1 ⟨[], 2⟩)
          1 ⟨[], 2⟩ =
        insert_new_diff ([] : List (H64 × TrieDiff H64 ℕ ℕ)) 1 ⟨[], 2⟩) ∧
    ((5 : H64) = (5 : H64) ∧
      insert_new_diff [((7 : H64), (⟨[], 9⟩ : TrieDiff H64 ℕ ℕ))] 5 ⟨[], 5⟩ =
        [((7 : H64), (⟨[], 9⟩ : TrieDiff H64 ℕ ℕ))]) :=
  ⟨⟨by decide, insertNewDiff_amended.1 ℕ ℕ [] 1 ⟨[], 2⟩ (by decide)⟩,
    ⟨rfl, insertNewDiff_amended.2 ℕ ℕ [(7, ⟨[], 9⟩)] 5 ⟨[], 5⟩ rfl⟩⟩

/-! ### C1: maker/taker matching -/

/-- C1: for positive taker amounts and a positive maker price, a `Buy`
request matches iff the pair coincides, the taker base amount is within
`[min_base_vol, available_amount]` and the implied taker price is at least
the maker price, returning `Matched (taker_base, taker_base * price)`; a
`Sell` request is matched with the taker's base/rel swapped relative to the
maker, returning `Matched (taker_base / price, taker_base)`.  In particular
the maker `{A/B, price 2, max 10, min 1}` matches the Buy request `5 A for
10 B` as `Matched (5, 10)` and rejects `5 A for 9 B`. -/
theorem matchWithRequest_spec :
    (∀ (maker : MakerOrder) (taker : TakerRequest),
      0 < taker.base_amount → 0 < taker.rel_amount → 0 < maker.price →
      ((taker.action = TakerAction.Buy →
        ((maker.match_with_request taker =
            OrderMatchResult.Matched (taker.base_amount, taker.base_amount * maker.price)) ↔
          (maker.base = taker.base ∧ maker.rel = taker.rel ∧
            taker.base_amount ≤ maker.available_amount ∧
            maker.min_base_vol ≤ taker.base_amount ∧
            maker.price ≤ taker.rel_amount / taker.base_amount)) ∧
        (¬ (maker.base = taker.base ∧ maker.rel = taker.rel ∧
            taker.base_amount ≤ maker.available_amount ∧
            maker.min_base_vol ≤ taker.base_amount ∧
            maker.price ≤ taker.rel_amount / taker.base_amount) →
          maker.match_with_request taker = OrderMatchResult.NotMatched)) ∧
       (taker.action = TakerAction.Sell →
        ((maker.match_with_request taker =
            OrderMatchResult.Matched (taker.base_amount / maker.price, taker.base_amount)) ↔
          (maker.base = taker.rel ∧ maker.rel = taker.base ∧
            taker.rel_amount ≤ maker.available_amount ∧
            maker.min_base_vol ≤ taker.rel_amount ∧
            maker.price ≤ taker.base_amount / taker.rel_amount)) ∧
        (¬ (maker.base = taker.rel ∧ maker.rel = taker.base ∧
            taker.rel_amount ≤ maker.available_amount ∧
            maker.min_base_vol ≤ taker.rel_amount ∧
            maker.price ≤ taker.base_amount / taker.rel_amount) →
          maker.match_with_request taker = OrderMatchResult.NotMatched)))) ∧
    ({ max_base_vol := 10, min_base_vol := 1, price := 2, base := "A", rel := "B",
        matches' := [] } : MakerOrder).match_with_request
      { base := "A", rel := "B", base_amount := 5, rel_amount := 10,
        action := TakerAction.Buy, conf_settings := none } =
      OrderMatchResult.Matched (5, 10) ∧
    ({ max_base_vol := 10, min_base_vol := 1, price := 2, base := "A", rel := "B",
        matches' := [] } : MakerOrder).match_with_request
      { base := "A", rel := "B", base_amount := 5, rel_amount := 9,
        action := TakerAction.Buy, conf_settings := none } =
      OrderMatchResult.NotMatched := by
  refine ⟨?_, ?_, ?_⟩
  case refine_2 =>
    simp only [MakerOrder.match_with_request, TakerRequest.get_base_amount,
      TakerRequest.get_rel_amount]
    norm_num [MakerOrder.available_amount]
  case refine_3 =>
    simp only [MakerOrder.match_with_request, TakerRequest.get_base_amount,
      TakerRequest.get_rel_amount]
    norm_num [MakerOrder.available_amount]
  intro maker taker hb hr _hp
  have hguard : ¬ (taker.base_amount ≤ 0 ∨ taker.rel_amount ≤ 0) := by
    push_neg
    exact ⟨hb, hr⟩
  constructor
  · intro hact
    have heq : maker.match_with_request taker =
        if maker.base = taker.base ∧ maker.rel = taker.rel ∧
            taker.base_amount ≤ maker.available_amount ∧
            maker.min_base_vol ≤ taker.base_amount ∧
            maker.price ≤ taker.rel_amount / taker.base_amount then
          OrderMatchResult.Matched (taker.base_amount, taker.base_amount * maker.price)
        else OrderMatchResult.NotMatched := by
      simp only [MakerOrder.match_with_request, TakerRequest.get_base_amount,
        TakerRequest.get_rel_amount, hact]
      rw [if_neg hguard]
    by_cases hc : maker.base = taker.base ∧ maker.rel = taker.rel ∧
        taker.base_amount ≤ maker.available_amount ∧
        maker.min_base_vol ≤ taker.base_amount ∧
        maker.price ≤ taker.rel_amount / taker.base_amount
    · refine ⟨⟨fun _ => hc, fun _ => ?_⟩, fun hnc => absurd hc hnc⟩
      rw [heq, if_pos hc]
    · refine ⟨⟨fun hM => ?_, fun hcc => absurd hcc hc⟩, fun _ => ?_⟩
      · rw [heq, if_neg hc] at hM
        cases hM
      · rw [heq, if_neg hc]
  · intro hact
    have heq : maker.match_with_request taker =
        if maker.base = taker.rel ∧ maker.rel = taker.base ∧
            taker.rel_amount ≤ maker.available_amount ∧
            maker.min_base_vol ≤ taker.rel_amount ∧
            maker.price ≤ taker.base_amount / taker.rel_amount then
          OrderMatchResult.Matched (taker.base_amount / maker.price, taker.base_amount)
        else OrderMatchResult.NotMatched := by
      simp only [MakerOrder.match_with_request, TakerRequest.get_base_amount,
        TakerRequest.get_rel_amount, hact]
      rw [if_neg hguard]
    by_cases hc : maker.base = taker.rel ∧ maker.rel = taker.base ∧
        taker.rel_amount ≤ maker.available_amount ∧
        maker.min_base_vol ≤ taker.rel_amount ∧
        maker.price ≤ taker.base_amount / taker.rel_amount
    · refine ⟨⟨fun _ => hc, fun _ => ?_⟩, fun hnc => absurd hc hnc⟩
      rw [heq, if_pos hc]
    · refine ⟨⟨fun hM => ?_, fun hcc => absurd hcc hc⟩, fun _ => ?_⟩
      · rw [heq, if_neg hc] at hM
        cases hM
      · rw [heq, if_neg hc]

/-- Witness for `matchWithRequest_spec`: the spec's concrete maker order and
Buy request, matched through the theorem. -/
theorem matchWithRequest_spec_witness :
    ({ max_base_vol := 10, min_base_vol := 1, price := 2, base := "A", rel := "B",
        matches' := [] } : MakerOrder).match_with_request
      { base := "A", rel := "B", base_amount := 5, rel_amount := 10,
        action := TakerAction.Buy, conf_settings := none } =
      OrderMatchResult.Matched (5, 5 * 2) :=
  ((matchWithRequest_spec.1
      { max_base_vol := 10, min_base_vol := 1, price := 2, base := "A", rel := "B",
        matches' := [] }
      { base := "A", rel := "B", base_amount := 5, rel_amount := 10,
        action := TakerAction.Buy, conf_settings := none }
      (by norm_num) (by norm_num) (by norm_num)).1 rfl).1.mpr
    (by refine ⟨rfl, rfl, ?_, by norm_num, by norm_num⟩
        norm_num [MakerOrder.available_amount])

/-! ### C2: confirmation-settings negotiation -/

/-- C2: with both sides' settings present, `choose_maker_confs_and_notas`
resolves the maker-coin requirement to the minimum of the maker's
`base_confs` and the taker's maker-coin-facing confs (base for Buy, rel for
Sell) and the AND of the corresponding notarization flags, while the
taker-coin requirement is the maker's own rel settings unchanged; in
particular maker `{2,true,2,true}` with taker `{1,false,1,false}` under Buy
resolves to `{1,false,2,true}`. -/
theorem chooseMakerConfsAndNotas_spec :
    (∀ (ms ts : OrderConfirmationsSettings) (req : TakerRequest) (mc tc : MmCoin),
      req.conf_settings = some ts →
      choose_maker_confs_and_notas (some ms) req mc tc =
        { maker_coin_confs :=
            min (match req.action with
              | TakerAction.Buy => ts.base_confs
              | TakerAction.Sell => ts.rel_confs) ms.base_confs
          maker_coin_nota :=
            (match req.action with
              | TakerAction.Buy => ts.base_nota
              | TakerAction.Sell => ts.rel_nota) && ms.base_nota
          taker_coin_confs := ms.rel_confs
          taker_coin_nota := ms.rel_nota }) ∧
    choose_maker_confs_and_notas
        (some { base_confs := 2, base_nota := true, rel_confs := 2, rel_nota := true })
        { base := "A", rel := "B", base_amount := 1, rel_amount := 1,
          action := TakerAction.Buy, conf_settings := some ⟨1, false, 1, false⟩ }
        { required_confirmations := 1, requires_notarization := false }
        { required_confirmations := 1, requires_notarization := false } =
      { maker_coin_confs := 1, maker_coin_nota := false,
        taker_coin_confs := 2, taker_coin_nota := true } := by
  refine ⟨?_, by decide⟩
  intro ms ts req mc tc hreq
  cases hA : req.action with
  | Buy =>
      simp only [choose_maker_confs_and_notas, hreq, hA, Option.getD_some,
        SwapConfirmationsSettings.mk.injEq]
      refine ⟨?_, ?_, trivial, trivial⟩
      · rcases Nat.lt_or_ge ts.base_confs ms.base_confs with h | h
        · rw [if_pos h, min_eq_left (Nat.le_of_lt h)]
        · rw [if_neg (Nat.not_lt.mpr h), min_eq_right h]
      · cases ts.base_nota <;> rfl
  | Sell =>
      simp only [choose_maker_confs_and_notas, hreq, hA, Option.getD_some,
        SwapConfirmationsSettings.mk.injEq]
      refine ⟨?_, ?_, trivial, trivial⟩
      · rcases Nat.lt_or_ge ts.rel_confs ms.base_confs with h | h
        · rw [if_pos h, min_eq_left (Nat.le_of_lt h)]
        · rw [if_neg (Nat.not_lt.mpr h), min_eq_right h]
      · cases ts.rel_nota <;> rfl

/-- Witness for `chooseMakerConfsAndNotas_spec` at the spec's concrete
settings. -/
theorem chooseMakerConfsAndNotas_spec_witness :
    choose_maker_confs_and_notas
        (some { base_confs := 2, base_nota := true, rel_confs := 2, rel_nota := true })
        { base := "A", rel := "B", base_amount := 1, rel_amount := 1,
          action := TakerAction.Buy, conf_settings := some ⟨1, false, 1, false⟩ }
        { required_confirmations := 1, requires_notarization := false }
        { required_confirmations := 1, requires_notarization := false } =
      { maker_coin_confs :=
          min (1 : ℕ) 2
        maker_coin_nota := false && true
        taker_coin_confs := 2
        taker_coin_nota := true } :=
  chooseMakerConfsAndNotas_spec.1
    { base_confs := 2, base_nota := true, rel_confs := 2, rel_nota := true }
    { base_confs := 1, base_nota := false, rel_confs := 1, rel_nota := false }
    { base := "A", rel := "B", base_amount := 1, rel_amount := 1,
      action := TakerAction.Buy, conf_settings := some ⟨1, false, 1, false⟩ }
    { required_confirmations := 1, requires_notarization := false }
    { required_confirmations := 1, requires_notarization := false }
    rfl

/-! ### C3: zarith round-trip -/

theorem zarith_uint_loop_rt (fuel : ℕ) :
    ∀ (n : ℕ) (rest : List Byte), n < fuel →
    readTezosUint (zarith_uint_loop fuel n ++ rest) = .ok (n, rest) := by
  induction fuel with
  | zero => intro n rest h; exact absurd h (Nat.not_lt_zero n)
  | succ f ih =>
      intro n rest h
      rw [zarith_uint_loop]
      by_cases h128 : n < 128
      · rw [dif_pos h128]
        simp only [List.cons_append, List.nil_append, readTezosUint]
        rw [if_pos h128]
        rfl
      · rw [dif_neg h128]
        simp only [List.cons_append, List.append_eq, readTezosUint]
        rw [if_neg (by omega), ih (n / 128) rest (by omega)]
        simp only [PResult.bind, PResult.ok.injEq, Prod.mk.injEq]
        exact ⟨by omega, trivial⟩

theorem readTezosUint_zarith (n : ℕ) (rest : List Byte) :
    readTezosUint (big_uint_to_zarith_bytes n ++ rest) = .ok (n, rest) :=
  zarith_uint_loop_rt (n + 1) n rest (Nat.lt_succ_self n)

theorem readTezosInt_zarith (z : ℤ) (rest : List Byte) :
    readTezosInt (big_int_to_zarith_bytes z ++ rest) = .ok (z, rest) := by
  rw [big_int_to_zarith_bytes]
  by_cases hneg : z < 0
  · rw [if_pos hneg]
    by_cases h64 : (-z).toNat < 64
    · rw [dif_pos h64]
      simp only [List.cons_append, List.nil_append, readTezosInt]
      have e1 : ((-z).toNat + 64) % 128 = (-z).toNat + 64 := Nat.mod_eq_of_lt (by omega)
      have e2 : ((-z).toNat + 64) % 64 = (-z).toNat := by omega
      rw [if_pos (by omega : (-z).toNat + 64 < 128)]
      simp only [e1, e2]
      rw [if_pos (by omega : 64 ≤ (-z).toNat + 64)]
      simp only [PResult.ok.injEq, Prod.mk.injEq]
      exact ⟨by omega, trivial⟩
    · rw [dif_neg h64]
      simp only [List.cons_append, readTezosInt]
      have e1 : ((-z).toNat % 64 + 64 + 128) % 128 = (-z).toNat % 64 + 64 := by omega
      have e2 : ((-z).toNat % 64 + 64 + 128) % 64 = (-z).toNat % 64 := by omega
      rw [if_neg (by omega : ¬ ((-z).toNat % 64 + 64 + 128 < 128))]
      simp only [e1, e2]
      rw [if_pos (by omega : 64 ≤ (-z).toNat % 64 + 64)]
      rw [readTezosUint_zarith ((-z).toNat / 64) rest]
      simp only [PResult.bind, PResult.ok.injEq, Prod.mk.injEq]
      refine ⟨?_, trivial⟩
      push_cast
      omega
  · rw [if_neg hneg]
    by_cases h64 : z.toNat < 64
    · rw [dif_pos h64]
      simp only [List.cons_append, List.nil_append, readTezosInt]
      have e1 : z.toNat % 128 = z.toNat := Nat.mod_eq_of_lt (by omega)
      have e2 : z.toNat % 64 = z.toNat := Nat.mod_eq_of_lt (by omega)
      rw [if_pos (by omega : z.toNat < 128)]
      simp only [e1, e2]
      rw [if_neg (by omega : ¬ (64 ≤ z.toNat))]
      simp only [PResult.ok.injEq, Prod.mk.injEq]
      exact ⟨by omega, trivial⟩
    · rw [dif_neg h64]
      simp only [List.cons_append, readTezosInt]
      have e1 : (z.toNat % 64 + 128) % 128 = z.toNat % 64 := by omega
      have e2 : (z.toNat % 64 + 128) % 64 = z.toNat % 64 := by omega
      rw [if_neg (by omega : ¬ (z.toNat % 64 + 128 < 128))]
      simp only [e1, e2]
      rw [if_neg (by omega : ¬ (64 ≤ z.toNat % 64))]
      rw [readTezosUint_zarith (z.toNat / 64) rest]
      simp only [PResult.bind, PResult.ok.injEq, Prod.mk.injEq]
      refine ⟨?_, trivial⟩
      push_cast
      omega

/-- C3: decoding inverts the zarith encodings — `TezosUint` (unsigned
`BigUint`, here `ℕ`) and `TezosInt` (signed `BigInt`, here `ℤ`, covering
negative values and base-128 boundaries) both round-trip with any trailing
bytes preserved — and zero encodes canonically as the single byte `0x00` in
both codecs. -/
theorem zarith_roundtrip_canonical_zero :
    (∀ (n : ℕ) (rest : List Byte),
      readTezosUint (big_uint_to_zarith_bytes n ++ rest) = .ok (n, rest)) ∧
    (∀ (z : ℤ) (rest : List Byte),
      readTezosInt (big_int_to_zarith_bytes z ++ rest) = .ok (z, rest)) ∧
    big_uint_to_zarith_bytes 0 = [(0 : Byte)] ∧
    big_int_to_zarith_bytes 0 = [(0 : Byte)] :=
  ⟨readTezosUint_zarith, readTezosInt_zarith, by decide, by decide⟩

/-! ### C10: keep-alive processing -/

theorem keepAliveStep_eq (subscribed : List String)
    (roots acc : List (String × TrieRoot)) (e : String × TrieRoot) :
    keepAliveStep subscribed (roots, acc) e =
      if orderbook_topic_from_ordered_pair e.1 ∈ subscribed then
        ((match hmGet roots e.1 with
          | some _ => roots
          | none => hmInsert roots e.1 none),
          if ¬ (hmGet roots e.1).getD none = e.2 then hmInsert acc e.1 e.2 else acc)
      else (roots, acc) := by
  by_cases hsub : orderbook_topic_from_ordered_pair e.1 ∈ subscribed
  · by_cases hm : ¬ (hmGet roots e.1).getD none = e.2
    · simp only [keepAliveStep, if_pos hsub, if_pos hm]
    · simp only [keepAliveStep, if_pos hsub, if_neg hm]
  · simp only [keepAliveStep, if_neg hsub]

theorem keepAlive_fold_inv (subscribed : List String)
    (base : List (String × TrieRoot)) :
    ∀ (msgs : List (String × TrieRoot)) (roots : List (String × TrieRoot))
      (acc : List (String × TrieRoot)),
      (∀ p, order_pair_root_get roots p = order_pair_root_get base p) →
      ((msgs.foldl (keepAliveStep subscribed) (roots, acc)).2 = [] ↔
        (acc = [] ∧ ∀ e ∈ msgs,
          orderbook_topic_from_ordered_pair e.1 ∈ subscribed →
          order_pair_root_get base e.1 = e.2)) := by
  intro msgs
  induction msgs with
  | nil =>
      intro roots acc _hinv
      simp
  | cons e ms ih =>
      intro roots acc hinv
      rw [List.foldl_cons, keepAliveStep_eq]
      by_cases hsub : orderbook_topic_from_ordered_pair e.1 ∈ subscribed
      · rw [if_pos hsub]
        have hactual : (hmGet roots e.1).getD none = order_pair_root_get base e.1 := hinv e.1
        have hroots2 : ∀ p, order_pair_root_get
            (match hmGet roots e.1 with
              | some _ => roots
              | none => hmInsert roots e.1 none) p = order_pair_root_get base p := by
          intro p
          cases hg : hmGet roots e.1 with
          | some v => exact hinv p
          | none =>
              by_cases hpe : p = e.1
              · subst hpe
                rw [← hinv e.1]
                unfold order_pair_root_get
                rw [hmGet_hmInsert_self, hg]
                rfl
              · unfold order_pair_root_get
                rw [hmGet_hmInsert_ne roots e.1 p none hpe]
                exact hinv p
        by_cases hmatch : (hmGet roots e.1).getD none = e.2
        · rw [if_neg (not_not_intro hmatch)]
          rw [ih _ acc hroots2]
          constructor
          · rintro ⟨ha, hrest⟩
            refine ⟨ha, ?_⟩
            intro e2 he2 hs2
            rcases List.mem_cons.mp he2 with he | he
            · subst he
              rw [← hactual, hmatch]
            · exact hrest e2 he hs2
          · rintro ⟨ha, hall⟩
            exact ⟨ha, fun e2 he2 hs2 => hall e2 (List.mem_cons_of_mem _ he2) hs2⟩
        · rw [if_pos hmatch]
          rw [ih _ (hmInsert acc e.1 e.2) hroots2]
          simp only [hmInsert]
          constructor
          · rintro ⟨ha, _⟩
            cases ha
          · rintro ⟨_, hall⟩
            exact absurd (hall e (List.mem_cons_self e ms) hsub)
              (fun hc => hmatch (hactual.symm ▸ hc ▸ rfl))
      · rw [if_neg hsub]
        rw [ih roots acc hinv]
        constructor
        · rintro ⟨ha, hrest⟩
          refine ⟨ha, fun e2 he2 hs2 => ?_⟩
          rcases List.mem_cons.mp he2 with he | he
          · subst he
            exact absurd hs2 hsub
          · exact hrest e2 he hs2
        · rintro ⟨ha, hall⟩
          exact ⟨ha, fun e2 he2 hs2 => hall e2 (List.mem_cons_of_mem _ he2) hs2⟩

/-- C10: processing a `PubkeyKeepAlive` from an already-known pubkey returns
`None` exactly when every advertised root of a subscribed pair equals the
locally cached root (missing cache entries reading as the default root); in
that case the pubkey's `last_keep_alive` becomes the message timestamp, and
otherwise the result is a `SyncPubkeyOrderbookState` request for that pubkey
and `last_keep_alive` is left unchanged. -/
theorem processKeepAlive_spec :
    ∀ (ob : Orderbook) (from_pubkey : String) (message : PubkeyKeepAlive) (now : ℕ)
      (ps : OrderbookPubkeyState),
      hmGet ob.pubkeys_state from_pubkey = some ps →
      (((ob.process_keep_alive from_pubkey message now).1 = none ↔
        (∀ e ∈ message.trie_roots,
          orderbook_topic_from_ordered_pair e.1 ∈ ob.topics_subscribed_to →
          order_pair_root_get ps.trie_roots e.1 = e.2)) ∧
      (∀ ps2, hmGet (ob.process_keep_alive from_pubkey message now).2.pubkeys_state
          from_pubkey = some ps2 →
        ps2.last_keep_alive =
          if (ob.process_keep_alive from_pubkey message now).1 = none then
            message.timestamp
          else ps.last_keep_alive) ∧
      ((ob.process_keep_alive from_pubkey message now).1 = none ∨
        ∃ rr, (ob.process_keep_alive from_pubkey message now).1 =
          some (OrdermatchRequest.SyncPubkeyOrderbookState from_pubkey rr))) := by
  intro ob pk msg now ps hps
  have hpsg : pubkey_state_get ob.pubkeys_state pk now = ps := by
    simp [pubkey_state_get, hps]
  have hiff := keepAlive_fold_inv ob.topics_subscribed_to ps.trie_roots msg.trie_roots
    ps.trie_roots [] (fun _ => rfl)
  simp only [true_and] at hiff
  rcases hF : msg.trie_roots.foldl (keepAliveStep ob.topics_subscribed_to)
    (ps.trie_roots, []) with ⟨roots, tr⟩
  rw [hF] at hiff
  by_cases htr : tr = []
  · subst htr
    simp only [Orderbook.process_keep_alive, hpsg, hF, List.isEmpty_nil, if_true]
    refine ⟨?_, ?_, Or.inl trivial⟩
    · simp only [true_iff]
      exact hiff.mp rfl
    · intro ps2 hps2
      simp only [hmGet_hmInsert_self] at hps2
      cases hps2
      simp
  · have htre : tr.isEmpty = false := by
      cases tr with
      | nil => exact absurd rfl htr
      | cons a l => rfl
    simp only [Orderbook.process_keep_alive, hpsg, hF, htre, Bool.false_eq_true, if_false]
    refine ⟨?_, ?_, Or.inr ⟨tr, rfl⟩⟩
    · simp only [reduceCtorEq, false_iff]
      intro hall
      exact htr (hiff.mpr hall)
    · intro ps2 hps2
      simp only [hmGet_hmInsert_self] at hps2
      cases hps2
      simp

/-- Witness for `processKeepAlive_spec`: a one-pubkey orderbook subscribed to
one pair, receiving a keep-alive whose root matches the cached root. -/
theorem processKeepAlive_spec_witness :
    hmGet c10ob.pubkeys_state "pk" = some (defaultPubkeyState 7) ∧
    ((c10ob.process_keep_alive "pk" c10msg 11).1 = none ↔
      (∀ e ∈ c10msg.trie_roots,
        orderbook_topic_from_ordered_pair e.1 ∈ c10ob.topics_subscribed_to →
        order_pair_root_get (defaultPubkeyState 7).trie_roots e.1 = e.2)) :=
  ⟨rfl, (processKeepAlive_spec c10ob "pk" c10msg 11 (defaultPubkeyState 7) rfl).1⟩

/-! ### C6/C7: the orderbook invariant -/

theorem inv_index_after_remove {β : Type} [DecidableEq β]
    (idx : List ((String × String) × List β)) (order_set : List (Uuid × OrderbookItem))
    (uuidOf : β → Uuid) (P : (String × String) → β → OrderbookItem → Prop)
    (hinv : ∀ e ∈ idx, ∀ y ∈ e.2, optHolds (P e.1 y) (hmGet order_set (uuidOf y)))
    (u : Uuid) (o : OrderbookItem) (ho : hmGet order_set u = some o) (del : β)
    (hforce : ∀ e ∈ idx, ∀ y ∈ e.2, uuidOf y = u → P e.1 y o →
      y = del ∧ e.1 = (o.base, o.rel)) :
    ∀ e ∈ removeFromIndex idx (o.base, o.rel) del, ∀ y ∈ e.2,
      optHolds (P e.1 y) (hmGet (hmRemove order_set u).2 (uuidOf y)) := by
  intro e he y hy
  obtain ⟨⟨e0, he0, heq1, hsub⟩, himp⟩ := mem_removeFromIndex he
  have hyin := hsub y hy
  have hold := hinv e0 he0 y hyin
  by_cases hu : uuidOf y = u
  · rw [hu, ho] at hold
    have hP : P e0.1 y o := hold
    obtain ⟨hyd, hbr⟩ := hforce e0 he0 y hyin hu hP
    exact absurd hyd (himp (heq1.trans hbr) y hy)
  · rw [heq1, hmGet_hmRemove_ne order_set u (uuidOf y) hu]
    exact hold

theorem inv_index_after_insert {β : Type} [DecidableEq β]
    (idx : List ((String × String) × List β)) (order_set : List (Uuid × OrderbookItem))
    (uuidOf : β → Uuid) (P : (String × String) → β → OrderbookItem → Prop)
    (hinv : ∀ e ∈ idx, ∀ y ∈ e.2, optHolds (P e.1 y) (hmGet order_set (uuidOf y)))
    (o : OrderbookItem)
    (hok : ∀ o2, hmGet order_set o.uuid = some o2 →
      o2.price = o.price ∧ o2.base = o.base ∧ o2.rel = o.rel ∧ o2.pubkey = o.pubkey)
    (newel : β) (hnewu : uuidOf newel = o.uuid)
    (hPnew : P (o.base, o.rel) newel o)
    (hcompat : ∀ br y o2, P br y o2 → o2.price = o.price → o2.base = o.base →
      o2.rel = o.rel → o2.pubkey = o.pubkey → P br y o) :
    ∀ e ∈ insertIntoIndex idx (o.base, o.rel) newel, ∀ y ∈ e.2,
      optHolds (P e.1 y) (hmGet (hmInsert order_set o.uuid o) (uuidOf y)) := by
  intro e he y hy
  rcases mem_insertIntoIndex he with ⟨hbr, hall⟩ | ⟨hmem, hne⟩
  · rcases hall y hy with hyx | ⟨e0, he0, he0br, hyin⟩
    · subst hyx
      rw [hnewu, hmGet_hmInsert_self, hbr]
      exact hPnew
    · have hold := hinv e0 he0 y hyin
      by_cases hu : uuidOf y = o.uuid
      · rw [hu, hmGet_hmInsert_self]
        cases hocc : hmGet order_set o.uuid with
        | none =>
            rw [hu, hocc] at hold
            exact hold.elim
        | some o2 =>
            rw [hu, hocc] at hold
            have hagree := hok o2 hocc
            rw [hbr]
            exact hcompat (o.base, o.rel) y o2 (he0br ▸ hold)
              hagree.1 hagree.2.1 hagree.2.2.1 hagree.2.2.2
      · rw [hmGet_hmInsert_ne order_set o.uuid (uuidOf y) o hu, hbr, ← he0br]
        exact hold
  · have hold := hinv e hmem y hy
    by_cases hu : uuidOf y = o.uuid
    · rw [hu, hmGet_hmInsert_self]
      cases hocc : hmGet order_set o.uuid with
      | none =>
          rw [hu, hocc] at hold
          exact hold.elim
      | some o2 =>
          rw [hu, hocc] at hold
          have hagree := hok o2 hocc
          exact hcompat e.1 y o2 hold hagree.1 hagree.2.1 hagree.2.2.1 hagree.2.2.2
    · rw [hmGet_hmInsert_ne order_set o.uuid (uuidOf y) o hu]
      exact hold

theorem inv_tries_after_remove (ob : Orderbook) (u : Uuid) (now : ℕ) (o : OrderbookItem)
    (hg : hmGet ob.order_set u = some o)
    (h3 : ∀ pe ∈ ob.pubkeys_state, ∀ te ∈ pe.2.trie_roots, ∀ kv ∈ te.2.getD [],
      optHolds (fun o2 => o2.pubkey = pe.1 ∧ alb_ordered_pair o2.base o2.rel = te.1)
        (hmGet ob.order_set kv.1))
    (newroot : TrieRoot)
    (hnew : ∀ kv ∈ newroot.getD [],
      ∃ r, hmGet (pubkey_state_get ob.pubkeys_state o.pubkey now).trie_roots
          (alb_ordered_pair o.base o.rel) = some r ∧ kv ∈ r.getD [] ∧ ¬ kv.1 = u)
    (ps2 : OrderbookPubkeyState)
    (hps2roots : ps2.trie_roots =
      hmInsert (pubkey_state_get ob.pubkeys_state o.pubkey now).trie_roots
        (alb_ordered_pair o.base o.rel) newroot) :
    ∀ pe ∈ hmInsert ob.pubkeys_state o.pubkey ps2, ∀ te ∈ pe.2.trie_roots,
      ∀ kv ∈ te.2.getD [],
      optHolds (fun o2 => o2.pubkey = pe.1 ∧ alb_ordered_pair o2.base o2.rel = te.1)
        (hmGet (hmRemove ob.order_set u).2 kv.1) := by
  intro pe hpe te hte kv hkv
  rcases mem_hmInsert hpe with hpe1 | ⟨hpeold, hpne⟩
  · subst hpe1
    rw [hps2roots] at hte
    rcases mem_hmInsert hte with hte1 | ⟨hteold, htne⟩
    · subst hte1
      obtain ⟨r, hr, hkvin, hkne⟩ := hnew kv hkv
      cases hpg : hmGet ob.pubkeys_state o.pubkey with
      | none =>
          rw [show pubkey_state_get ob.pubkeys_state o.pubkey now =
            defaultPubkeyState now from by simp [pubkey_state_get, hpg]] at hr
          simp [defaultPubkeyState, hmGet] at hr
      | some ps0 =>
          rw [show pubkey_state_get ob.pubkeys_state o.pubkey now = ps0 from by
            simp [pubkey_state_get, hpg]] at hr
          have hold := h3 (o.pubkey, ps0) (hmGet_mem hpg)
            (alb_ordered_pair o.base o.rel, r) (hmGet_mem hr) kv hkvin
          rw [hmGet_hmRemove_ne _ _ _ hkne]
          exact hold
    · cases hpg : hmGet ob.pubkeys_state o.pubkey with
      | none =>
          rw [show pubkey_state_get ob.pubkeys_state o.pubkey now =
            defaultPubkeyState now from by simp [pubkey_state_get, hpg]] at hteold
          simp [defaultPubkeyState] at hteold
      | some ps0 =>
          rw [show pubkey_state_get ob.pubkeys_state o.pubkey now = ps0 from by
            simp [pubkey_state_get, hpg]] at hteold
          have hold := h3 (o.pubkey, ps0) (hmGet_mem hpg) te hteold kv hkv
          by_cases hku : kv.1 = u
          · rw [hku, hg] at hold
            exact absurd hold.2.symm htne
          · rw [hmGet_hmRemove_ne _ _ _ hku]
            exact hold
  · have hold := h3 pe hpeold te hte kv hkv
    by_cases hku : kv.1 = u
    · rw [hku, hg] at hold
      exact absurd hold.1.symm hpne
    · rw [hmGet_hmRemove_ne _ _ _ hku]
      exact hold

theorem inv_remove_order_trie_update (ob : Orderbook) (u : Uuid) (now : ℕ)
    (hinv : OrderbookInv ob) : OrderbookInv (ob.remove_order_trie_update u now).2 := by
  obtain ⟨h1, h2, h3⟩ := hinv
  cases hg : hmGet ob.order_set u with
  | none =>
      have hid : (ob.remove_order_trie_update u now).2 = ob := by
        unfold Orderbook.remove_order_trie_update
        rw [hg]
      rw [hid]
      exact ⟨h1, h2, h3⟩
  | some o =>
      have hpart1 := inv_index_after_remove ob.ordered ob.order_set Prod.snd
        (fun br y o2 => o2.price = y.1 ∧ o2.base = br.1 ∧ o2.rel = br.2) h1 u o hg
        (o.price, u)
        (fun e _he y _hy hu hP =>
          ⟨Prod.ext hP.1.symm hu, Prod.ext hP.2.1.symm hP.2.2.symm⟩)
      have hpart2 := inv_index_after_remove ob.unordered ob.order_set (fun y => y)
        (fun br _y o2 => o2.base = br.1 ∧ o2.rel = br.2) h2 u o hg u
        (fun e _he y _hy hu hP => ⟨hu, Prod.ext hP.1.symm hP.2.symm⟩)
      cases hroot : order_pair_root_get
          (pubkey_state_get ob.pubkeys_state o.pubkey now).trie_roots
          (alb_ordered_pair o.base o.rel) with
      | none =>
          simp only [Orderbook.remove_order_trie_update, hg, hroot]
          unfold OrderbookInv
          refine ⟨hpart1, hpart2, ?_⟩
          refine inv_tries_after_remove ob u now o hg h3 none ?_ _ rfl
          intro kv hkv
          exact absurd hkv (List.not_mem_nil kv)
      | some content =>
          simp only [Orderbook.remove_order_trie_update, hg, hroot]
          unfold OrderbookInv
          refine ⟨hpart1, hpart2, ?_⟩
          refine inv_tries_after_remove ob u now o hg h3
            (some (content.filter (fun e => decide (¬ e.1 = u)))) ?_ _ rfl
          intro kv hkv
          have hkv2 := List.mem_filter.mp hkv
          refine ⟨some content, ?_, hkv2.1, by simpa using hkv2.2⟩
          cases hq : hmGet (pubkey_state_get ob.pubkeys_state o.pubkey now).trie_roots
              (alb_ordered_pair o.base o.rel) with
          | none =>
              unfold order_pair_root_get at hroot
              rw [hq] at hroot
              cases hroot
          | some r0 =>
              unfold order_pair_root_get at hroot
              rw [hq] at hroot
              simpa using hroot

theorem insertOk_fields (ob : Orderbook) (o : OrderbookItem) (hok : insertOk ob o) :
    ∀ o2, hmGet ob.order_set o.uuid = some o2 →
      o2.price = o.price ∧ o2.base = o.base ∧ o2.rel = o.rel ∧ o2.pubkey = o.pubkey := by
  intro o2 hg2
  rcases hok with hOpt | hnone
  · rw [hg2] at hOpt
    exact hOpt
  · rw [hg2] at hnone
    cases hnone

theorem inv_insert_or_update_order (ob : Orderbook) (o : OrderbookItem) (now : ℕ)
    (hinv : OrderbookInv ob) (hok : insertOk ob o) :
    OrderbookInv (ob.insert_or_update_order o now) := by
  by_cases hbad : o.max_volume ≤ 0 ∨ o.price ≤ 0 ∨ o.min_volume < 0
  · have hid : ob.insert_or_update_order o now =
        (ob.remove_order_trie_update o.uuid now).2 := by
      unfold Orderbook.insert_or_update_order
      rw [if_pos hbad]
    rw [hid]
    exact inv_remove_order_trie_update ob o.uuid now hinv
  · obtain ⟨h1, h2, h3⟩ := hinv
    have hok2 := insertOk_fields ob o hok
    have hpart1 := inv_index_after_insert ob.ordered ob.order_set Prod.snd
      (fun br y o2 => o2.price = y.1 ∧ o2.base = br.1 ∧ o2.rel = br.2) h1 o hok2
      (o.price, o.uuid) rfl ⟨rfl, rfl, rfl⟩
      (fun _br _y o2 hP hp hb hr _hpk =>
        ⟨hp.symm.trans hP.1, hb.symm.trans hP.2.1, hr.symm.trans hP.2.2⟩)
    have hpart2 := inv_index_after_insert ob.unordered ob.order_set (fun y => y)
      (fun br _y o2 => o2.base = br.1 ∧ o2.rel = br.2) h2 o hok2 o.uuid rfl ⟨rfl, rfl⟩
      (fun _br _y o2 hP _hp hb hr _hpk => ⟨hb.symm.trans hP.1, hr.symm.trans hP.2⟩)
    have hpart3 : ∀ pe ∈ ob.pubkeys_state, ∀ te ∈ pe.2.trie_roots, ∀ kv ∈ te.2.getD [],
        optHolds (fun o2 => o2.pubkey = pe.1 ∧ alb_ordered_pair o2.base o2.rel = te.1)
          (hmGet (hmInsert ob.order_set o.uuid o) kv.1) := by
      intro pe hpe te hte kv hkv
      have hold := h3 pe hpe te hte kv hkv
      by_cases hku : kv.1 = o.uuid
      · rw [hku, hmGet_hmInsert_self]
        cases hocc : hmGet ob.order_set o.uuid with
        | none =>
            rw [hku, hocc] at hold
            exact hold.elim
        | some o2 =>
            rw [hku, hocc] at hold
            have ha := hok2 o2 hocc
            exact ⟨ha.2.2.2.symm.trans hold.1, ha.2.1 ▸ ha.2.2.1 ▸ hold.2⟩
      · rw [hmGet_hmInsert_ne _ _ _ _ hku]
        exact hold
    unfold Orderbook.insert_or_update_order
    rw [if_neg hbad]
    exact ⟨hpart1, hpart2, hpart3⟩

theorem inv_insert_or_update_order_update_trie (ob : Orderbook) (o : OrderbookItem)
    (now : ℕ) (hinv : OrderbookInv ob) (hok : insertOk ob o) :
    OrderbookInv (ob.insert_or_update_order_update_trie o now) := by
  by_cases hbad : o.max_volume ≤ 0 ∨ o.price ≤ 0 ∨ o.min_volume < 0
  · have hid : ob.insert_or_update_order_update_trie o now =
        (ob.remove_order_trie_update o.uuid now).2 := by
      unfold Orderbook.insert_or_update_order_update_trie
      rw [if_pos hbad]
    rw [hid]
    exact inv_remove_order_trie_update ob o.uuid now hinv
  · have hob1 : ob.insert_or_update_order o now =
        { ob with
            ordered := insertIntoIndex ob.ordered (o.base, o.rel) (o.price, o.uuid)
            unordered := insertIntoIndex ob.unordered (o.base, o.rel) o.uuid
            order_set := hmInsert ob.order_set o.uuid o } := by
      unfold Orderbook.insert_or_update_order
      rw [if_neg hbad]
    obtain ⟨g1, g2, _g3⟩ := inv_insert_or_update_order ob o now hinv hok
    obtain ⟨_h1, _h2, h3⟩ := hinv
    have hok2 := insertOk_fields ob o hok
    unfold Orderbook.insert_or_update_order_update_trie
    rw [if_neg hbad, hob1]
    rw [hob1] at g1 g2
    refine ⟨g1, g2, ?_⟩
    intro pe hpe te hte kv hkv
    rcases mem_hmInsert hpe with hpe1 | ⟨hpeold, hpne⟩
    · subst hpe1
      rcases mem_hmInsert hte with hte1 | ⟨hteold, htne⟩
      · subst hte1
        rcases mem_hmInsert hkv with hkv1 | ⟨hkvold, hkne⟩
        · subst hkv1
          rw [hmGet_hmInsert_self]
          exact ⟨rfl, rfl⟩
        · cases hq : hmGet (pubkey_state_get ob.pubkeys_state o.pubkey now).trie_roots
              (alb_ordered_pair o.base o.rel) with
          | none =>
              rw [show order_pair_root_get
                  (pubkey_state_get ob.pubkeys_state o.pubkey now).trie_roots
                  (alb_ordered_pair o.base o.rel) = none from by
                unfold order_pair_root_get
                rw [hq]
                rfl] at hkvold
              cases hkvold
          | some r =>
              cases r with
              | none =>
                  rw [show order_pair_root_get
                      (pubkey_state_get ob.pubkeys_state o.pubkey now).trie_roots
                      (alb_ordered_pair o.base o.rel) = none from by
                    unfold order_pair_root_get
                    rw [hq]
                    rfl] at hkvold
                  cases hkvold
              | some c =>
                  rw [show order_pair_root_get
                      (pubkey_state_get ob.pubkeys_state o.pubkey now).trie_roots
                      (alb_ordered_pair o.base o.rel) = some c from by
                    unfold order_pair_root_get
                    rw [hq]
                    rfl] at hkvold
                  cases hpg : hmGet ob.pubkeys_state o.pubkey with
                  | none =>
                      rw [show pubkey_state_get ob.pubkeys_state o.pubkey now =
                        defaultPubkeyState now from by simp [pubkey_state_get, hpg]] at hq
                      simp [defaultPubkeyState, hmGet] at hq
                  | some ps0 =>
                      rw [show pubkey_state_get ob.pubkeys_state o.pubkey now = ps0 from by
                        simp [pubkey_state_get, hpg]] at hq
                      have hold := h3 (o.pubkey, ps0) (hmGet_mem hpg)
                        (alb_ordered_pair o.base o.rel, some c) (hmGet_mem hq) kv hkvold
                      rw [hmGet_hmInsert_ne _ _ _ _ hkne]
                      exact hold
      · cases hpg : hmGet ob.pubkeys_state o.pubkey with
        | none =>
            rw [show pubkey_state_get ob.pubkeys_state o.pubkey now =
              defaultPubkeyState now from by simp [pubkey_state_get, hpg]] at hteold
            simp [defaultPubkeyState] at hteold
        | some ps0 =>
            rw [show pubkey_state_get ob.pubkeys_state o.pubkey now = ps0 from by
              simp [pubkey_state_get, hpg]] at hteold
            have hold := h3 (o.pubkey, ps0) (hmGet_mem hpg) te hteold kv hkv
            by_cases hku : kv.1 = o.uuid
            · rw [hku, hmGet_hmInsert_self]
              cases hocc : hmGet ob.order_set o.uuid with
              | none =>
                  rw [hku, hocc] at hold
                  exact hold.elim
              | some o2 =>
                  rw [hku, hocc] at hold
                  have ha := hok2 o2 hocc
                  exact ⟨rfl, ha.2.1 ▸ ha.2.2.1 ▸ hold.2⟩
            · rw [hmGet_hmInsert_ne _ _ _ _ hku]
              exact hold
    · have hold := h3 pe hpeold te hte kv hkv
      by_cases hku : kv.1 = o.uuid
      · rw [hku, hmGet_hmInsert_self]
        cases hocc : hmGet ob.order_set o.uuid with
        | none =>
            rw [hku, hocc] at hold
            exact hold.elim
        | some o2 =>
            rw [hku, hocc] at hold
            have ha := hok2 o2 hocc
            exact ⟨ha.2.2.2.symm.trans hold.1, ha.2.1 ▸ ha.2.2.1 ▸ hold.2⟩
      · rw [hmGet_hmInsert_ne _ _ _ _ hku]
        exact hold

theorem inv_remove_order (ob : Orderbook) (u : Uuid) (hinv : OrderbookInv ob)
    (hcond : ∀ pe ∈ ob.pubkeys_state, ∀ te ∈ pe.2.trie_roots, ∀ kv ∈ te.2.getD [],
      ¬ kv.1 = u) : OrderbookInv (ob.remove_order u).2 := by
  obtain ⟨h1, h2, h3⟩ := hinv
  cases hg : hmGet ob.order_set u with
  | none =>
      have hid : (ob.remove_order u).2 = ob := by
        unfold Orderbook.remove_order
        rw [hg]
      rw [hid]
      exact ⟨h1, h2, h3⟩
  | some o =>
      have hpart1 := inv_index_after_remove ob.ordered ob.order_set Prod.snd
        (fun br y o2 => o2.price = y.1 ∧ o2.base = br.1 ∧ o2.rel = br.2) h1 u o hg
        (o.price, u)
        (fun e _he y _hy hu hP =>
          ⟨Prod.ext hP.1.symm hu, Prod.ext hP.2.1.symm hP.2.2.symm⟩)
      have hpart2 := inv_index_after_remove ob.unordered ob.order_set (fun y => y)
        (fun br _y o2 => o2.base = br.1 ∧ o2.rel = br.2) h2 u o hg u
        (fun e _he y _hy hu hP => ⟨hu, Prod.ext hP.1.symm hP.2.symm⟩)
      simp only [Orderbook.remove_order, hg]
      unfold OrderbookInv
      refine ⟨hpart1, hpart2, ?_⟩
      intro pe hpe te hte kv hkv
      have hold := h3 pe hpe te hte kv hkv
      rw [hmGet_hmRemove_ne _ _ _ (hcond pe hpe te hte kv hkv)]
      exact hold

theorem inv_applyOp (ob : Orderbook) (op : OBOp) (hinv : OrderbookInv ob)
    (hop : opOk ob op) : OrderbookInv (applyOp ob op) := by
  cases op with
  | insertOrUpdate o => exact inv_insert_or_update_order ob o 0 hinv hop
  | insertOrUpdateTrie o => exact inv_insert_or_update_order_update_trie ob o 0 hinv hop
  | removeOrder u => exact inv_remove_order ob u hinv hop
  | removeOrderTrie u => exact inv_remove_order_trie_update ob u 0 hinv

theorem inv_emptyOrderbook : OrderbookInv emptyOrderbook := by
  refine ⟨?_, ?_, ?_⟩ <;>
    · intro e he
      exact absurd he (List.not_mem_nil e)

theorem inv_implies_claim (ob : Orderbook) (hinv : OrderbookInv ob) :
    OrderbookClaimInv ob := by
  obtain ⟨h1, h2, h3⟩ := hinv
  refine ⟨?_, ?_, ?_⟩
  · intro e he pu hpu
    have := h1 e he pu hpu
    cases hq : hmGet ob.order_set pu.2 with
    | none => rw [hq] at this; exact this.elim
    | some o2 => rfl
  · intro e he u hu
    have := h2 e he u hu
    cases hq : hmGet ob.order_set u with
    | none => rw [hq] at this; exact this.elim
    | some o2 => rfl
  · intro pe hpe te hte kv hkv
    have := h3 pe hpe te hte kv hkv
    cases hq : hmGet ob.order_set kv.1 with
    | none => rw [hq] at this; exact this.elim
    | some o2 =>
        rw [hq] at this
        exact this.1

/-- C6 counterexample: starting from the empty orderbook, inserting an
order, re-inserting it after an `apply_updated` that changes its price, and
then removing it leaves the stale `(old price, uuid)` entry in the `ordered`
index while the uuid is gone from `order_set`, violating the claimed
invariant. -/
theorem orderbook_invariant_cex :
    ¬ OrderbookClaimInv
      ([OBOp.insertOrUpdate c6item,
        OBOp.insertOrUpdate (c6item.apply_updated
          { new_price := some 2, new_max_volume := none, new_min_volume := none }),
        OBOp.removeOrder 0].foldl applyOp emptyOrderbook) := by
  decide

/-- C6 amended: the invariant — every uuid in `ordered`/`unordered` has an
`order_set` entry, and every uuid in a pubkey's trie has an `order_set`
entry with matching pubkey — holds in every state reachable from the empty
orderbook by insert/remove operations, provided each insertion of a uuid
already present agrees with the existing entry on price, base, rel and
pubkey (ruling out the price-changing re-insertion of the counterexample),
and the plain non-trie `remove_order` is not applied to a uuid still present
in a pubkey trie. -/
theorem orderbook_invariant_amended :
    ∀ (ops : List OBOp), ValidOps emptyOrderbook ops →
      OrderbookClaimInv (ops.foldl applyOp emptyOrderbook) := by
  have main : ∀ (ops : List OBOp) (ob : Orderbook), OrderbookInv ob →
      ValidOps ob ops → OrderbookInv (ops.foldl applyOp ob) := by
    intro ops
    induction ops with
    | nil =>
        intro ob h _
        exact h
    | cons op ops ih =>
        intro ob h hv
        exact ih _ (inv_applyOp ob op h hv.1) hv.2
  intro ops hv
  exact inv_implies_claim _ (main ops emptyOrderbook inv_emptyOrderbook hv)

/-- Witness for `orderbook_invariant_amended`: a trie insertion followed by
a trie removal. -/
theorem orderbook_invariant_amended_witness :
    ValidOps emptyOrderbook [OBOp.insertOrUpdateTrie c6item, OBOp.removeOrderTrie 0] ∧
    OrderbookClaimInv
      ([OBOp.insertOrUpdateTrie c6item, OBOp.removeOrderTrie 0].foldl applyOp
        emptyOrderbook) :=
  ⟨by decide, orderbook_invariant_amended _ (by decide)⟩

theorem remove_order_trie_update_get_self (ob : Orderbook) (u : Uuid) (now : ℕ) :
    hmGet (ob.remove_order_trie_update u now).2.order_set u = none := by
  cases hg : hmGet ob.order_set u with
  | none =>
      have hid : (ob.remove_order_trie_update u now).2 = ob := by
        unfold Orderbook.remove_order_trie_update
        rw [hg]
      rw [hid]
      exact hg
  | some o =>
      cases hroot : order_pair_root_get
          (pubkey_state_get ob.pubkeys_state o.pubkey now).trie_roots
          (alb_ordered_pair o.base o.rel) with
      | none =>
          simp only [Orderbook.remove_order_trie_update, hg, hroot]
          exact hmGet_hmRemove_self _ _
      | some content =>
          simp only [Orderbook.remove_order_trie_update, hg, hroot]
          exact hmGet_hmRemove_self _ _

/-- C7: under the orderbook invariant, inserting an item whose
`max_volume ≤ 0`, `price ≤ 0` or `min_volume < 0` through
`insert_or_update_order_update_trie` leaves its uuid absent from
`order_set`, from every `ordered` and `unordered` index entry (in
particular its own pair's), and from every pubkey's pair trie (in
particular the owning pubkey's). -/
theorem insertOrUpdateOrderUpdateTrie_removes :
    ∀ (ob : Orderbook) (o : OrderbookItem) (now : ℕ), OrderbookInv ob →
      (o.max_volume ≤ 0 ∨ o.price ≤ 0 ∨ o.min_volume < 0) →
      (hmGet (ob.insert_or_update_order_update_trie o now).order_set o.uuid = none ∧
       (∀ e ∈ (ob.insert_or_update_order_update_trie o now).ordered,
          ∀ pu ∈ e.2, ¬ pu.2 = o.uuid) ∧
       (∀ e ∈ (ob.insert_or_update_order_update_trie o now).unordered,
          ∀ u2 ∈ e.2, ¬ u2 = o.uuid) ∧
       (∀ pe ∈ (ob.insert_or_update_order_update_trie o now).pubkeys_state,
          ∀ te ∈ pe.2.trie_roots, ∀ kv ∈ te.2.getD [], ¬ kv.1 = o.uuid)) := by
  intro ob o now hinv hbad
  have hcall : ob.insert_or_update_order_update_trie o now =
      (ob.remove_order_trie_update o.uuid now).2 := by
    unfold Orderbook.insert_or_update_order_update_trie
    rw [if_pos hbad]
  rw [hcall]
  have hnone := remove_order_trie_update_get_self ob o.uuid now
  obtain ⟨p1, p2, p3⟩ := inv_remove_order_trie_update ob o.uuid now hinv
  refine ⟨hnone, ?_, ?_, ?_⟩
  · intro e he pu hpu hpu2
    have hp := p1 e he pu hpu
    rw [hpu2, hnone] at hp
    exact hp
  · intro e he u2 hu2 hu2e
    have hp := p2 e he u2 hu2
    rw [hu2e, hnone] at hp
    exact hp
  · intro pe hpe te hte kv hkv hkv1
    have hp := p3 pe hpe te hte kv hkv
    rw [hkv1, hnone] at hp
    exact hp

/-- Witness for `insertOrUpdateOrderUpdateTrie_removes`: the empty orderbook
and an item with zero max volume. -/
theorem insertOrUpdateOrderUpdateTrie_removes_witness :
    OrderbookInv emptyOrderbook ∧
    ((0 : ℚ) ≤ 0 ∨ (1 : ℚ) ≤ 0 ∨ (0 : ℚ) < 0) ∧
    hmGet (emptyOrderbook.insert_or_update_order_update_trie
      { pubkey := "p", base := "A", rel := "B", price := 1, max_volume := 0,
        min_volume := 0, uuid := 3, created_at := 0 } 5).order_set 3 = none :=
  ⟨inv_emptyOrderbook, Or.inl (by norm_num),
    (insertOrUpdateOrderUpdateTrie_removes emptyOrderbook
      { pubkey := "p", base := "A", rel := "B", price := 1, max_volume := 0,
        min_volume := 0, uuid := 3, created_at := 0 } 5 inv_emptyOrderbook
      (Or.inl (by norm_num))).1⟩

/-! ### C4: operation round trip -/

theorem bval0 : ((0 : Byte) : ℕ) = 0 := rfl
theorem bval1 : ((1 : Byte) : ℕ) = 1 := rfl
theorem bval2 : ((2 : Byte) : ℕ) = 2 := rfl
theorem bval3 : ((3 : Byte) : ℕ) = 3 := rfl
theorem bval4 : ((4 : Byte) : ℕ) = 4 := rfl
theorem bval5 : ((5 : Byte) : ℕ) = 5 := rfl
theorem bval6 : ((6 : Byte) : ℕ) = 6 := rfl
theorem bval7 : ((7 : Byte) : ℕ) = 7 := rfl
theorem bval8 : ((8 : Byte) : ℕ) = 8 := rfl
theorem bval9 : ((9 : Byte) : ℕ) = 9 := rfl
theorem bval10 : ((10 : Byte) : ℕ) = 10 := rfl
theorem bval11 : ((11 : Byte) : ℕ) = 11 := rfl
theorem bval107 : ((107 : Byte) : ℕ) = 107 := rfl
theorem bval108 : ((108 : Byte) : ℕ) = 108 := rfl
theorem bval255 : ((255 : Byte) : ℕ) = 255 := rfl

theorem read_slice_append (bs rest : List Byte) :
    read_slice bs.length (bs ++ rest) = .ok (bs, rest) := by
  simp [read_slice, List.take_left, List.drop_left]

theorem u32be_len (n : ℕ) : (u32be n).length = 4 := rfl

theorem be32_u32be (n : ℕ) (h : n < 4294967296) : be32 (u32be n) = n := by
  simp only [be32, u32be, List.foldl]
  omega

theorem readLenPrefixed_append (bs rest : List Byte) (h : bs.length < 4294967296) :
    readLenPrefixed (u32be bs.length ++ (bs ++ rest)) = .ok (bs, rest) := by
  unfold readLenPrefixed
  have h4 : read_slice 4 (u32be bs.length ++ (bs ++ rest)) =
      .ok (u32be bs.length, bs ++ rest) := by
    have h5 := read_slice_append (u32be bs.length) (bs ++ rest)
    rw [u32be_len] at h5
    exact h5
  rw [h4]
  simp only [PResult.bind]
  rw [be32_u32be _ h, read_slice_append]

theorem big_int_zarith_ne_nil (m : ℤ) : big_int_to_zarith_bytes m ≠ [] := by
  simp only [big_int_to_zarith_bytes]
  split <;> split <;> simp

theorem serializeValue_ne_nil (v : TezosValue) : serializeValue v ≠ [] := by
  cases v with
  | Bytes bs => simp [serializeValue]
  | Int m => simp [serializeValue]
  | String s => simp [serializeValue]
  | List items => simp [serializeValue]
  | TezosPrim p => cases p <;> simp [serializeValue, serializePrim]

theorem szPrim_pos (p : TezosPrim) : 1 ≤ szPrim p := by
  cases p <;> simp only [szPrim] <;> omega

theorem szValue_pos (v : TezosValue) : 1 ≤ szValue v := by
  cases v with
  | Bytes bs => exact le_refl 1
  | Int n => exact le_refl 1
  | String s => exact le_refl 1
  | TezosPrim p => exact szPrim_pos p
  | List items => simp only [szValue]; omega

theorem sz_lt_len_aux (n : ℕ) :
    (∀ v : TezosValue, szValue v ≤ n → szValue v < (serializeValue v).length) ∧
    (∀ items : List TezosValue, szItems items ≤ n →
      szItems items ≤ (serializeListItems items).length) := by
  induction n with
  | zero =>
      refine ⟨fun v hv => absurd hv (by have := szValue_pos v; omega),
        fun items hi => ?_⟩
      cases items with
      | nil => simp [szItems, serializeListItems]
      | cons v vs => exact absurd hi (by simp only [szItems]; omega)
  | succ n ih =>
      refine ⟨fun v hv => ?_, fun items hi => ?_⟩
      · cases v with
        | Bytes bs =>
            simp only [szValue, serializeValue, List.length_cons, List.length_append,
              u32be_len]
            omega
        | Int m =>
            have h2 : 1 ≤ (big_int_to_zarith_bytes m).length := by
              cases hb : big_int_to_zarith_bytes m with
              | nil => exact absurd hb (big_int_zarith_ne_nil m)
              | cons a l => simp
            simp only [szValue, serializeValue, List.length_cons]
            omega
        | String s =>
            simp only [szValue, serializeValue, List.length_cons, List.length_append,
              u32be_len]
            omega
        | List items =>
            have h2 := ih.2 items (by simp only [szValue] at hv; omega)
            simp only [szValue, serializeValue, List.length_cons, List.length_append,
              u32be_len]
            omega
        | TezosPrim p =>
            cases p with
            | Pair l r =>
                have hl := ih.1 l (by simp only [szValue, szPrim] at hv ⊢; omega)
                have hr := ih.1 r (by simp only [szValue, szPrim] at hv ⊢; omega)
                simp only [szValue, szPrim, serializeValue, serializePrim,
                  List.length_cons, List.length_append]
                omega
            | Elt l r =>
                have hl := ih.1 l (by simp only [szValue, szPrim] at hv ⊢; omega)
                have hr := ih.1 r (by simp only [szValue, szPrim] at hv ⊢; omega)
                simp only [szValue, szPrim, serializeValue, serializePrim,
                  List.length_cons, List.length_append]
                omega
            | Left v' =>
                have hl := ih.1 v' (by simp only [szValue, szPrim] at hv ⊢; omega)
                simp only [szValue, szPrim, serializeValue, serializePrim,
                  List.length_cons, List.length_append]
                omega
            | Right v' =>
                have hl := ih.1 v' (by simp only [szValue, szPrim] at hv ⊢; omega)
                simp only [szValue, szPrim, serializeValue, serializePrim,
                  List.length_cons, List.length_append]
                omega
            | Some v' =>
                have hl := ih.1 v' (by simp only [szValue, szPrim] at hv ⊢; omega)
                simp only [szValue, szPrim, serializeValue, serializePrim,
                  List.length_cons, List.length_append]
                omega
            | Unit => simp [szValue, szPrim, serializeValue, serializePrim]
            | False => simp [szValue, szPrim, serializeValue, serializePrim]
            | True => simp [szValue, szPrim, serializeValue, serializePrim]
            | None => simp [szValue, szPrim, serializeValue, serializePrim]
      · cases items with
        | nil => simp [szItems, serializeListItems]
        | cons v vs =>
            have h1 := ih.1 v (by simp only [szItems] at hi; omega)
            have h2 := ih.2 vs (by simp only [szItems] at hi; omega)
            simp only [szItems, serializeListItems, List.length_append]
            omega

theorem szValue_lt_len (v : TezosValue) : szValue v < (serializeValue v).length :=
  (sz_lt_len_aux (szValue v)).1 v (le_refl _)

theorem deserializeValue_rt (f : ℕ) :
    (∀ (v : TezosValue) (rest : List Byte), wfValue v = true → szValue v ≤ f →
      deserializeValue f (serializeValue v ++ rest) = .ok (v, rest)) ∧
    (∀ (items : List TezosValue), wfListItems items = true → szItems items ≤ f →
      deserializeListItems f (serializeListItems items) = .ok items) := by
  induction f with
  | zero =>
      refine ⟨fun v rest _ hsz => absurd hsz (by have := szValue_pos v; omega),
        fun items hwf hsz => ?_⟩
      cases items with
      | nil => rfl
      | cons v vs => exact absurd hsz (by simp only [szItems]; omega)
  | succ f ih =>
      refine ⟨fun v rest hwf hsz => ?_, fun items hwf hsz => ?_⟩
      · cases v with
        | Int m =>
            have key := readTezosInt_zarith m rest
            simp [deserializeValue, serializeValue, readByte, PResult.bind, key, bval0]
        | String s =>
            simp only [wfValue, Bool.and_eq_true, decide_eq_true_eq] at hwf
            have key := readLenPrefixed_append s rest hwf.2
            simp [deserializeValue, serializeValue, readByte, PResult.bind, key,
              hwf.1, List.append_assoc, bval1]
        | Bytes bs =>
            simp only [wfValue, decide_eq_true_eq] at hwf
            have key := readLenPrefixed_append bs rest hwf
            simp [deserializeValue, serializeValue, readByte, PResult.bind, key,
              List.append_assoc, bval10]
        | List items =>
            simp only [wfValue, Bool.and_eq_true, decide_eq_true_eq] at hwf
            have key := readLenPrefixed_append (serializeListItems items) rest hwf.2
            have key2 := ih.2 items hwf.1 (by simp only [szValue] at hsz; omega)
            simp [deserializeValue, serializeValue, readByte, PResult.bind, key, key2,
              List.append_assoc, bval2]
        | TezosPrim p =>
            cases p with
            | Unit =>
                simp [deserializeValue, serializeValue, serializePrim, readByte,
                  PResult.bind, bval3, bval11]
            | False =>
                simp [deserializeValue, serializeValue, serializePrim, readByte,
                  PResult.bind, bval3]
            | True =>
                simp [deserializeValue, serializeValue, serializePrim, readByte,
                  PResult.bind, bval3, bval10]
            | None =>
                simp [deserializeValue, serializeValue, serializePrim, readByte,
                  PResult.bind, bval3, bval6]
            | Left v' =>
                have key := ih.1 v' rest (by simpa [wfValue, wfPrim] using hwf)
                  (by simp only [szValue, szPrim] at hsz; omega)
                simp [deserializeValue, serializeValue, serializePrim, readByte,
                  PResult.bind, key, List.append_assoc, bval5]
            | Right v' =>
                have key := ih.1 v' rest (by simpa [wfValue, wfPrim] using hwf)
                  (by simp only [szValue, szPrim] at hsz; omega)
                simp [deserializeValue, serializeValue, serializePrim, readByte,
                  PResult.bind, key, List.append_assoc, bval5, bval8]
            | Some v' =>
                have key := ih.1 v' rest (by simpa [wfValue, wfPrim] using hwf)
                  (by simp only [szValue, szPrim] at hsz; omega)
                simp [deserializeValue, serializeValue, serializePrim, readByte,
                  PResult.bind, key, List.append_assoc, bval5, bval9]
            | Pair l r =>
                simp only [wfValue, wfPrim, Bool.and_eq_true] at hwf
                have kl := ih.1 l (serializeValue r ++ rest) hwf.1
                  (by simp only [szValue, szPrim] at hsz; omega)
                have kr := ih.1 r rest hwf.2
                  (by simp only [szValue, szPrim] at hsz; omega)
                simp [deserializeValue, serializeValue, serializePrim, readByte,
                  PResult.bind, kl, kr, List.append_assoc, bval7]
            | Elt l r =>
                simp only [wfValue, wfPrim, Bool.and_eq_true] at hwf
                have kl := ih.1 l (serializeValue r ++ rest) hwf.1
                  (by simp only [szValue, szPrim] at hsz; omega)
                have kr := ih.1 r rest hwf.2
                  (by simp only [szValue, szPrim] at hsz; omega)
                simp [deserializeValue, serializeValue, serializePrim, readByte,
                  PResult.bind, kl, kr, List.append_assoc, bval7, bval4]
      · cases items with
        | nil => rfl
        | cons v vs =>
            simp only [wfListItems, Bool.and_eq_true] at hwf
            have h1 := ih.1 v (serializeListItems vs) hwf.1
              (by simp only [szItems] at hsz; omega)
            have h2 := ih.2 vs hwf.2 (by simp only [szItems] at hsz; omega)
            obtain ⟨a, t, hat⟩ : ∃ a t, serializeValue v = a :: t := by
              cases hh : serializeValue v with
              | nil => exact absurd hh (serializeValue_ne_nil v)
              | cons a t => exact ⟨a, t, rfl⟩
            show deserializeListItems (f + 1) (serializeValue v ++ serializeListItems vs) =
              .ok (v :: vs)
            rw [hat, List.cons_append]
            simp only [deserializeListItems]
            rw [← List.cons_append, ← hat, h1]
            simp only [PResult.bind]
            rw [h2]

theorem deserializeValueFull_rt (v : TezosValue) (hwf : wfValue v = true) :
    deserializeValueFull (serializeValue v) = .ok v := by
  unfold deserializeValueFull
  have h1 := (deserializeValue_rt (serializeValue v).length).1 v [] hwf
    (le_of_lt (szValue_lt_len v))
  rw [List.append_nil] at h1
  rw [h1]
  rfl

theorem readPubkeyHash_rt (p : PubkeyHash) (rest : List Byte)
    (hwf : wfPubkeyHash p = true) :
    readPubkeyHash (serializePubkeyHash p ++ rest) = .ok (p, rest) := by
  obtain ⟨ct, hash⟩ := p
  simp only [wfPubkeyHash, decide_eq_true_eq] at hwf
  have key : read_slice 20 (hash ++ rest) = .ok (hash, rest) := by
    have h5 := read_slice_append hash rest
    rw [hwf] at h5
    exact h5
  cases ct <;>
    simp [serializePubkeyHash, readPubkeyHash, readByte, PResult.bind, key,
      bval0, bval1, bval2]

theorem readContractId_rt (c : ContractId) (rest : List Byte)
    (hwf : wfContractId c = true) :
    readContractId (serializeContractId c ++ rest) = .ok (c, rest) := by
  cases c with
  | PubkeyHash h =>
      simp only [wfContractId] at hwf
      have key := readPubkeyHash_rt h rest hwf
      simp [serializeContractId, readContractId, readByte, PResult.bind, key, bval0]
  | Originated h =>
      simp only [wfContractId, decide_eq_true_eq] at hwf
      have key : read_slice 20 (h ++ ((0 : Byte) :: rest)) = .ok (h, (0 : Byte) :: rest) := by
        have h5 := read_slice_append h ((0 : Byte) :: rest)
        rw [hwf] at h5
        exact h5
      simp [serializeContractId, readContractId, readByte, PResult.bind, key,
        List.append_assoc, bval1]

theorem readTezosPubkey_rt (p : TezosPubkey) (rest : List Byte)
    (hwf : wfTezosPubkey p = true) :
    readTezosPubkey (serializeTezosPubkey p ++ rest) = .ok (p, rest) := by
  obtain ⟨pfx, data⟩ := p
  simp only [wfTezosPubkey, Bool.or_eq_true, Bool.and_eq_true, decide_eq_true_eq] at hwf
  have hne1 : (SECP_PK_PFX = ED_PK_PFX) = False := eq_false (by decide)
  have hne2 : (P256_PK_PFX = ED_PK_PFX) = False := eq_false (by decide)
  have hne3 : (P256_PK_PFX = SECP_PK_PFX) = False := eq_false (by decide)
  rcases hwf with (h | h) | h
  · obtain ⟨hpfx, hlen⟩ := h
    subst hpfx
    have key : read_slice 32 (data ++ rest) = .ok (data, rest) := by
      have h5 := read_slice_append data rest
      rw [hlen] at h5
      exact h5
    simp [serializeTezosPubkey, readTezosPubkey, readByte, PResult.bind, key, bval0]
  · obtain ⟨hpfx, hlen⟩ := h
    subst hpfx
    have key : read_slice 33 (data ++ rest) = .ok (data, rest) := by
      have h5 := read_slice_append data rest
      rw [hlen] at h5
      exact h5
    simp [serializeTezosPubkey, readTezosPubkey, readByte, PResult.bind, key, bval1,
      hne1]
  · obtain ⟨hpfx, hlen⟩ := h
    subst hpfx
    have key : read_slice 33 (data ++ rest) = .ok (data, rest) := by
      have h5 := read_slice_append data rest
      rw [hlen] at h5
      exact h5
    simp [serializeTezosPubkey, readTezosPubkey, readByte, PResult.bind, key, bval2,
      hne2, hne3]

theorem readEntrypointId_rt (e : EntrypointId) (rest : List Byte)
    (hwf : wfEntrypointId e = true) :
    readEntrypointId (serializeEntrypointId e ++ rest) = .ok (e, rest) := by
  cases e with
  | Default =>
      simp [serializeEntrypointId, readEntrypointId, readByte, PResult.bind, bval0]
  | Root =>
      simp [serializeEntrypointId, readEntrypointId, readByte, PResult.bind, bval1]
  | Do =>
      simp [serializeEntrypointId, readEntrypointId, readByte, PResult.bind, bval2]
  | SetDelegate =>
      simp [serializeEntrypointId, readEntrypointId, readByte, PResult.bind, bval3]
  | RemoveDelegate =>
      simp [serializeEntrypointId, readEntrypointId, readByte, PResult.bind, bval4]
  | Named name =>
      simp only [wfEntrypointId, Bool.and_eq_true, decide_eq_true_eq] at hwf
      have hmod : name.length % 256 = name.length := Nat.mod_eq_of_lt hwf.2
      have key := read_slice_append name rest
      simp [serializeEntrypointId, readEntrypointId, readByte, PResult.bind,
        bval255, hmod, key, hwf.1]

theorem read_parameters_none (rest : List Byte) :
    read_parameters ((0 : Byte) :: rest) = .ok (none, rest) := by
  simp [read_parameters, readByte, PResult.bind, bval0]

theorem read_parameters_some (v : TezosValue) (rest : List Byte)
    (hwf : wfValue v = true)
    (hlen : (serializeValue v).length + 1 < 4294967296) :
    read_parameters ((255 : Byte) :: (u32be ((serializeValue v).length + 1) ++
      ((0 : Byte) :: (serializeValue v ++ rest)))) = .ok (some v, rest) := by
  have hkey := readLenPrefixed_append ((0 : Byte) :: serializeValue v) rest
    (by simpa using hlen)
  simp only [List.length_cons, List.cons_append] at hkey
  have hfull := deserializeValueFull_rt v hwf
  simp [read_parameters, readByte, PResult.bind, bval255, hkey, hfull]

theorem read_babylon_parameters_none (rest : List Byte) :
    read_babylon_parameters ((0 : Byte) :: rest) = .ok (none, rest) := by
  simp [read_babylon_parameters, readByte, PResult.bind, bval0]

theorem read_babylon_parameters_some (ep : EntrypointId) (v : TezosValue)
    (rest : List Byte) (hep : wfEntrypointId ep = true) (hwf : wfValue v = true)
    (hlen : (serializeValue v).length < 4294967296) :
    read_babylon_parameters ((255 : Byte) :: (serializeEntrypointId ep ++
      (u32be (serializeValue v).length ++ (serializeValue v ++ rest)))) =
      .ok (some { entrypoint := ep, params := v }, rest) := by
  have hkey := readLenPrefixed_append (serializeValue v) rest hlen
  have hfull := deserializeValueFull_rt v hwf
  have hentry := readEntrypointId_rt ep
    (u32be (serializeValue v).length ++ (serializeValue v ++ rest)) hep
  simp [read_babylon_parameters, readByte, PResult.bind, bval255, hentry, hkey, hfull]

theorem readTezosTransaction_rt (tx : TezosTransaction) (rest : List Byte)
    (hwf : wfTezosTransaction tx = true) :
    readTezosTransaction (serializeTezosTransaction tx ++ rest) = .ok (tx, rest) := by
  obtain ⟨src, fee, counter, gas, storage, amount, dest, params⟩ := tx
  simp only [wfTezosTransaction, Bool.and_eq_true, decide_eq_true_eq] at hwf
  obtain ⟨⟨h1, h2⟩, h3⟩ := hwf
  cases params with
  | none =>
      simp [serializeTezosTransaction, readTezosTransaction, List.append_assoc,
        PResult.bind, readContractId_rt, readTezosUint_zarith, read_parameters_none,
        h1, h2]
  | some pv =>
      have h3' : wfValue pv = true ∧ (serializeValue pv).length + 1 < 4294967296 := by
        simpa using h3
      simp [serializeTezosTransaction, readTezosTransaction, List.append_assoc,
        PResult.bind, readContractId_rt, readTezosUint_zarith, read_parameters_some,
        h1, h2, h3'.1, h3'.2]

theorem readBabylonTransaction_rt (tx : BabylonTransaction) (rest : List Byte)
    (hwf : wfBabylonTransaction tx = true) :
    readBabylonTransaction (serializeBabylonTransaction tx ++ rest) = .ok (tx, rest) := by
  obtain ⟨src, fee, counter, gas, storage, amount, dest, params⟩ := tx
  simp only [wfBabylonTransaction, Bool.and_eq_true, decide_eq_true_eq] at hwf
  obtain ⟨⟨h1, h2⟩, h3⟩ := hwf
  cases params with
  | none =>
      simp [serializeBabylonTransaction, readBabylonTransaction, List.append_assoc,
        PResult.bind, readPubkeyHash_rt, readContractId_rt, readTezosUint_zarith,
        read_babylon_parameters_none, h1, h2]
  | some bp =>
      obtain ⟨ep, pv⟩ := bp
      have h3' : (wfEntrypointId ep = true ∧ wfValue pv = true) ∧
          (serializeValue pv).length < 4294967296 := by
        simpa using h3
      simp [serializeBabylonTransaction, readBabylonTransaction, List.append_assoc,
        PResult.bind, readPubkeyHash_rt, readContractId_rt, readTezosUint_zarith,
        read_babylon_parameters_some, h1, h2, h3'.1.1, h3'.1.2, h3'.2]

theorem readRevealOp_rt (op : RevealOp) (rest : List Byte)
    (hwf : wfRevealOp op = true) :
    readRevealOp (serializeRevealOp op ++ rest) = .ok (op, rest) := by
  obtain ⟨src, fee, counter, gas, storage, pk⟩ := op
  simp only [wfRevealOp, Bool.and_eq_true] at hwf
  simp [serializeRevealOp, readRevealOp, List.append_assoc, PResult.bind,
    readPubkeyHash_rt, readTezosUint_zarith, readTezosPubkey_rt, hwf.1, hwf.2]

theorem speculativeReadOp_rt (c : TezosOperationEnum) (rest : List Byte)
    (hwf : wfOperationEnum c = true) :
    speculativeReadOp (serializeContent c ++ rest) = .ok (c, rest) := by
  cases c with
  | Transaction tx =>
      simp only [wfOperationEnum] at hwf
      have key := readTezosTransaction_rt tx rest hwf
      simp [speculativeReadOp, serializeContent, readByte, PResult.bind, key, bval8]
  | BabylonTransaction tx =>
      simp only [wfOperationEnum] at hwf
      have key := readBabylonTransaction_rt tx rest hwf
      simp [speculativeReadOp, serializeContent, readByte, PResult.bind, key,
        bval8, bval107, bval108]
  | Reveal op =>
      simp only [wfOperationEnum] at hwf
      have key := readRevealOp_rt op rest hwf
      simp [speculativeReadOp, serializeContent, readByte, PResult.bind, key,
        bval8, bval107]

theorem serializeContent_len_pos (c : TezosOperationEnum) :
    1 ≤ (serializeContent c).length := by
  cases c <;> simp [serializeContent]

theorem opLoop_no_sig (branch : List Byte) (contents : List TezosOperationEnum) :
    ∀ (acc : List TezosOperationEnum) (fuel : ℕ),
    wfContents contents = true → contents ≠ [] →
    (serializeContents contents).length < fuel →
    opContentsLoop branch fuel (serializeContents contents) acc =
      .ok { branch := branch, contents := acc ++ contents, signature := none } := by
  induction contents with
  | nil => intro acc fuel _ hne _; exact absurd rfl hne
  | cons c cs ih =>
      intro acc fuel hwf _ hfuel
      simp only [wfContents, Bool.and_eq_true] at hwf
      cases fuel with
      | zero => exact absurd hfuel (by omega)
      | succ f =>
          have hlen := serializeContent_len_pos c
          simp only [serializeContents, List.length_append] at hfuel
          simp only [opContentsLoop, serializeContents,
            speculativeReadOp_rt c (serializeContents cs) hwf.1]
          cases cs with
          | nil => simp [serializeContents]
          | cons c2 cs2 =>
              have hne2 : serializeContents (c2 :: cs2) ≠ [] := by
                simp only [serializeContents]
                intro hh
                have := serializeContent_len_pos c2
                have := congrArg List.length hh
                simp only [List.length_append, List.length_nil] at this
                omega
              have hemp : (serializeContents (c2 :: cs2)).isEmpty = false := by
                cases hsc : serializeContents (c2 :: cs2) with
                | nil => exact absurd hsc hne2
                | cons a t => rfl
              rw [hemp]
              simp only [Bool.false_eq_true, if_false]
              rw [ih (acc ++ [c]) f hwf.2 (by simp) (by omega)]
              simp

theorem opLoop_sig (branch sig : List Byte) (e : SerError)
    (hsig : speculativeReadOp sig = .err e) (hlen : sig.length = 64)
    (contents : List TezosOperationEnum) :
    ∀ (acc : List TezosOperationEnum) (fuel : ℕ),
    wfContents contents = true →
    (serializeContents contents).length < fuel →
    opContentsLoop branch fuel (serializeContents contents ++ sig) acc =
      .ok { branch := branch, contents := acc ++ contents, signature := some sig } := by
  induction contents with
  | nil =>
      intro acc fuel _ hfuel
      cases fuel with
      | zero => exact absurd hfuel (by omega)
      | succ f =>
          simp only [serializeContents, List.nil_append, opContentsLoop, hsig]
          rw [if_pos hlen]
          have htake : sig.take 64 = sig := by
            rw [← hlen]
            exact List.take_length sig
          have hslice : read_slice 64 sig = .ok (sig, sig.drop 64) := by
            simp [read_slice, htake, hlen]
          rw [hslice]
          simp [PResult.bind]
  | cons c cs ih =>
      intro acc fuel hwf hfuel
      cases fuel with
      | zero => exact absurd hfuel (by omega)
      | succ f =>
          simp only [wfContents, Bool.and_eq_true] at hwf
          have hlen1 := serializeContent_len_pos c
          simp only [serializeContents, List.length_append] at hfuel
          have hstep : serializeContents (c :: cs) ++ sig =
              serializeContent c ++ (serializeContents cs ++ sig) := by
            simp [serializeContents, List.append_assoc]
          rw [hstep]
          simp only [opContentsLoop,
            speculativeReadOp_rt c (serializeContents cs ++ sig) hwf.1]
          have hne : sig ≠ [] := by
            intro hh
            rw [hh] at hlen
            simp at hlen
          have hemp : (serializeContents cs ++ sig).isEmpty = false := by
            cases hsc : serializeContents cs ++ sig with
            | nil => exact absurd (List.append_eq_nil.mp hsc).2 hne
            | cons a t => rfl
          rw [hemp]
          simp only [Bool.false_eq_true, if_false]
          rw [ih (acc ++ [c]) f hwf.2 (by omega)]
          simp

/-- C4 amended: deserializing the serialization of a `TezosOperation` with
well-formed contents, a 32-byte branch and 1 to 3 contents returns the same
operation, provided the signature, when present, is 64 bytes whose first
byte is not one of the operation tags 8, 107, 108.  (Without that proviso
the round trip can fail: see the counterexample.) -/
theorem tezosOperation_roundtrip_amended (op : TezosOperation)
    (hwf : wfContents op.contents = true)
    (hbr : op.branch.length = 32)
    (hn1 : 1 ≤ op.contents.length) (hn3 : op.contents.length ≤ 3)
    (hsig : op.signature = none ∨ ∃ b tail, op.signature = some (b :: tail) ∧
      (b :: tail).length = 64 ∧ (b : ℕ) ≠ 8 ∧ (b : ℕ) ≠ 107 ∧ (b : ℕ) ≠ 108) :
    deserializeTezosOperation (serializeTezosOperation op) = .ok op := by
  obtain ⟨branch, contents, sig⟩ := op
  simp only at hwf hbr hn1 hn3 hsig
  have hne : contents ≠ [] := by
    intro hh
    subst hh
    simp at hn1
  rcases hsig with hnone | ⟨b, tail, hsome, hlen, h8, h107, h108⟩
  · subst hnone
    simp only [deserializeTezosOperation, serializeTezosOperation, List.append_nil]
    have hslice : read_slice 32 (branch ++ serializeContents contents) =
        .ok (branch, serializeContents contents) := by
      have h5 := read_slice_append branch (serializeContents contents)
      rw [hbr] at h5
      exact h5
    rw [hslice]
    simp only [PResult.bind]
    rw [opLoop_no_sig branch contents [] _ hwf hne (Nat.lt_succ_self _)]
    simp
  · subst hsome
    simp only [deserializeTezosOperation, serializeTezosOperation]
    rw [List.append_assoc]
    have hslice : read_slice 32 (branch ++ (serializeContents contents ++ (b :: tail))) =
        .ok (branch, serializeContents contents ++ (b :: tail)) := by
      have h5 := read_slice_append branch (serializeContents contents ++ (b :: tail))
      rw [hbr] at h5
      exact h5
    rw [hslice]
    simp only [PResult.bind]
    have hspec : speculativeReadOp (b :: tail) = .err .custom := by
      simp [speculativeReadOp, readByte, PResult.bind, h8, h107, h108]
    rw [opLoop_sig branch (b :: tail) .custom hspec hlen contents []
      ((serializeContents contents ++ (b :: tail)).length + 1) hwf
      (by simp only [List.length_append]; omega)]
    simp

set_option maxRecDepth 100000 in
set_option maxHeartbeats 1000000 in
/-- C4 counterexample: `c4op` has one Reveal content and a 64-byte
signature whose bytes themselves parse as a tagged Reveal operation, so the
decoder consumes the signature as a second content: decoding the encoding
yields an operation with two contents and no signature, not `c4op`. -/
theorem tezosOperation_roundtrip_cex :
    ¬ deserializeTezosOperation (serializeTezosOperation c4op) = .ok c4op := by
  intro h
  have h2 : resultContentsLen (deserializeTezosOperation (serializeTezosOperation c4op)) =
      some 2 := by decide
  rw [h] at h2
  exact absurd h2 (by decide)

/-- Witness for `tezosOperation_roundtrip_amended`: the operation `c4edgeOp`,
whose serialized content is a 59-byte Reveal and whose 64-byte all-zero
signature starts with byte 0. -/
theorem tezosOperation_roundtrip_amended_witness :
    wfContents c4edgeOp.contents = true ∧ c4edgeOp.branch.length = 32 ∧
    deserializeTezosOperation (serializeTezosOperation c4edgeOp) = .ok c4edgeOp :=
  ⟨by decide, by decide,
    tezosOperation_roundtrip_amended c4edgeOp (by decide) (by decide) (by decide)
      (by decide)
      (Or.inr ⟨0, List.replicate 63 0, by decide, by decide, by decide, by decide,
        by decide⟩)⟩


/-! ### C9: the decoders never panic -/

/-- C9: the claim that Tezos deserialization never panics is refuted by the
code: `read_parameters` slices `&bytes[1..]` out of the length-prefixed
parameter blob without checking it is non-empty, so the input
`[255, 0, 0, 0, 0]` (presence flag 255, length prefix 0) panics, and a full
`TezosOperation` input (`c9input`) embedding that blob in a tag-8
transaction makes `TezosOperation::deserialize` panic as well. -/
theorem read_parameters_panics :
    isPanicked (read_parameters [255, 0, 0, 0, 0]) = true ∧
    isPanicked (deserializeTezosOperation c9input) = true := by
  constructor
  · rfl
  · rfl

/-! ### C5: the 64-byte signature fallback -/

/-- C5: `TezosOperation::deserialize` reads the 32-byte branch and then
loops, speculatively parsing one more tagged operation from the remaining
buffer; whenever that speculative parse fails with an error, the loop
succeeds with the whole remaining buffer as the signature exactly when that
buffer is 64 bytes long, and otherwise reports the parse error. -/
theorem tezosOperation_sig_fallback :
    (∀ (input : List Byte), deserializeTezosOperation input =
      (read_slice 32 input).bind fun (branch, rest) =>
        opContentsLoop branch (rest.length + 1) rest []) ∧
    (∀ (branch buffer : List Byte) (contents : List TezosOperationEnum)
      (fuel : ℕ) (e : SerError),
      speculativeReadOp buffer = .err e →
      opContentsLoop branch (fuel + 1) buffer contents =
        if buffer.length = 64 then
          .ok { branch := branch, contents := contents, signature := some buffer }
        else .err e) := by
  constructor
  · intro input
    rfl
  · intro branch buffer contents fuel e hspec
    simp only [opContentsLoop, hspec]
    by_cases h64 : buffer.length = 64
    · rw [if_pos h64, if_pos h64]
      have hle : (64 : ℕ) ≤ buffer.length := by omega
      have htake : buffer.take 64 = buffer := by
        rw [← h64]
        exact List.take_length buffer
      simp only [read_slice, if_pos hle, PResult.bind, htake]
    · rw [if_neg h64, if_neg h64]

/-- Witness for `tezosOperation_sig_fallback`: an all-zero 64-byte buffer
(leading byte 0 is no operation tag, so the speculative parse fails) becomes
the signature of an envelope with the accumulated contents. -/
theorem tezosOperation_sig_fallback_witness :
    speculativeReadOp (List.replicate 64 (0 : Byte)) = .err .custom ∧
    opContentsLoop [] 1 (List.replicate 64 (0 : Byte)) [] =
      if (List.replicate 64 (0 : Byte)).length = 64 then
        .ok { branch := [], contents := [],
              signature := some (List.replicate 64 (0 : Byte)) }
      else .err .custom :=
  ⟨rfl, tezosOperation_sig_fallback.2 [] (List.replicate 64 0) [] 0 .custom rfl⟩

end AtomicDex


